import Mathlib

set_option maxHeartbeats 3200000

/-!
# Verification of the SecureBox solver (src/SecureBox/main.cpp)

This development gives a shallow embedding of `main.cpp` and proves the
specification claims about it.

* The grid held by a `SecureBox` is embedded as a function `Grid` together
  with its dimensions `ySize`/`xSize`; `toggle`, `isLocked` mirror the class
  methods.
* The solver `openBox` is embedded phase by phase: `buildA`/`buildB` build the
  linear system, `gaussElim` is the forward elimination, `backSubst` the
  reverse substitution, `applySolution` the replay of toggles.
* `std::vector<std::vector<bool>> A` is embedded as a `List Vec` of row
  vectors (rows are swapped as whole objects, as `std::swap(A[col], A[pivot])`
  does); `b` as a `List Bool`.
* C++ `%` with a zero divisor is undefined behaviour; where the source can hit
  it (`SecureBox::shuffle`), the embedding returns `Option` and models that
  case as `none`.  The pseudo-random generator is modelled by the list of its
  outputs.
-/

namespace SecureBoxSpec

/-! ## Definitions -/

/-- Row vectors of the linear system, indexed by column. -/
abbrev Vec := Nat → Bool

/-- The all-false row. -/
def vzero : Vec := fun _ => false

instance : Inhabited Vec := ⟨vzero⟩

/-- Update one coordinate of a row. -/
def setV (v : Vec) (j : Nat) (val : Bool) : Vec := fun k => if k = j then val else v k

/-- Pointwise xor of rows. -/
def vadd (v w : Vec) : Vec := fun k => xor (v k) (w k)

/-- The grid of cells held by a `SecureBox`: cell `(row, col)`. -/
abbrev Grid := Nat → Nat → Bool

/-- The state of a freshly constructed box, before shuffling: all cells false. -/
def allFalse : Grid := fun _ _ => false

/-- `SecureBox::toggle (y, x)`: flip cell `(y, x)`, then every cell of row `y`
(`box[y][i]` for `i < xSize`), then every cell of column `x` (`box[i][x]` for
`i < ySize`), exactly as the three statements of the method do. -/
def toggle (ySize xSize : Nat) (g : Grid) (ty tx : Nat) : Grid :=
  let g1 : Grid := fun r c => if r = ty ∧ c = tx then !g r c else g r c
  let g2 : Grid := fun r c => if r = ty ∧ c < xSize then !g1 r c else g1 r c
  fun r c => if r < ySize ∧ c = tx then !g2 r c else g2 r c

/-- `SecureBox::isLocked`: true iff some cell is true (column-major scan, as in
the source; the order does not matter for the result). -/
def isLocked (ySize xSize : Nat) (g : Grid) : Bool :=
  (List.range xSize).any fun cx => (List.range ySize).any fun cy => g cy cx

/-- C++ `a % m` on unsigned values: undefined behaviour when `m = 0`. -/
def cppMod (a m : Nat) : Option Nat := if m = 0 then none else some (a % m)

/-- The toggle loop of `SecureBox::shuffle`: perform `t` random toggles, each
consuming two generator outputs (`rng() % ySize`, `rng() % xSize`).  `none`
models undefined behaviour (modulo by zero) or an exhausted output stream. -/
def shuffleSteps (ySize xSize : Nat) : Nat → Grid → List Nat → Option Grid
  | 0, g, _ => some g
  | _ + 1, _, [] => none
  | _ + 1, _, [_] => none
  | t + 1, g, r1 :: r2 :: rest =>
    match cppMod r1 ySize, cppMod r2 xSize with
    | some ry, some rx => shuffleSteps ySize xSize t (toggle ySize xSize g ry rx) rest
    | _, _ => none

/-- `SecureBox::shuffle`: `for (uint32_t t = rng() % 1000; t > 0; t--)
toggle(rng() % ySize, rng() % xSize);` starting from the all-false grid the
constructor allocated. -/
def shuffle (ySize xSize : Nat) (g : Grid) (rng : List Nat) : Option Grid :=
  match rng with
  | [] => none
  | r0 :: rest => shuffleSteps ySize xSize (r0 % 1000) g rest

/-- Row `idx` of the coefficient matrix `A`, as filled in by the loop body of
`openBox` for `row = idx / x`, `col = idx % x`: its own diagonal entry, the
row effect `A[idx][row*x + i] = true` for `i < x`, and the column effect
`A[idx][i*x + col] = true` for `i < y`. -/
def buildRow (y x idx : Nat) : Vec :=
  let row := idx / x
  let col := idx % x
  let v1 := setV vzero idx true
  let v2 := (List.range x).foldl (fun v i => setV v (row * x + i) true) v1
  (List.range y).foldl (fun v i => setV v (i * x + col) true) v2

/-- The coefficient matrix `A` built by `openBox` (one row per cell index). -/
def buildA (y x : Nat) : List Vec := (List.range (y * x)).map (buildRow y x)

/-- The right-hand side `b` built by `openBox`: `b[idx] = state[row][col]`. -/
def buildB (y x : Nat) (g : Grid) : List Bool :=
  (List.range (y * x)).map fun idx => g (idx / x) (idx % x)

/-- The pivot search `pivot = col; while (pivot < y*x && !A[pivot][col]) ++pivot;`. -/
def findPivot (A : List Vec) (col p : Nat) : Nat :=
  if h : p < A.length then
    if (A.getD p vzero) col then p else findPivot A col (p + 1)
  else p
termination_by A.length - p

/-- Exchange entries `i` and `j` of a list (`std::swap(A[col], A[pivot])`,
and the three-statement swap of `b[col]`/`b[pivot]`). -/
def swapIdx (l : List α) (d : α) (i j : Nat) : List α :=
  (l.set i (l.getD j d)).set j (l.getD i d)

/-- Map a function receiving the element index over a list. -/
def mapWithIdx (f : Nat → α → α) : Nat → List α → List α
  | _, [] => []
  | i, a :: t => f i a :: mapWithIdx f (i + 1) t

/-- The inner elimination applied to row `r`: if `r > col` and `A[r][col]`,
xor the pivot row into it on columns `col ≤ k < n`. -/
def elimRowOp (n col : Nat) (piv : Vec) (r : Nat) (v : Vec) : Vec :=
  if col < r ∧ v col then (fun k => if col ≤ k ∧ k < n then xor (v k) (piv k) else v k) else v

/-- One iteration of the Gauss loop of `openBox` for column `col`: pivot
search from row `col` downwards, `continue` when no pivot exists, otherwise
swap rows `col` and `pivot` in `A` and in `b` and clear column `col` below
the pivot. -/
def gaussStep (n col : Nat) : List Vec × List Bool → List Vec × List Bool := fun Ab =>
  let A := Ab.1
  let b := Ab.2
  let pivot := findPivot A col col
  if pivot = n then (A, b)
  else
    let A1 := swapIdx A vzero col pivot
    let b1 := swapIdx b false col pivot
    let piv := A1.getD col vzero
    let pb := b1.getD col false
    (mapWithIdx (elimRowOp n col piv) 0 A1,
     mapWithIdx (fun r βr => if col < r ∧ (A1.getD r vzero) col then xor βr pb else βr) 0 b1)

/-- The full forward elimination: the Gauss loop over columns `0 … y*x-1`. -/
def gaussElim (n : Nat) (A : List Vec) (b : List Bool) : List Vec × List Bool :=
  (List.range n).foldl (fun s col => gaussStep n col s) (A, b)

/-- One iteration of the reverse substitution for `row`: start from `b[row]`,
xor `A[row][col] & xResult[col]` over `col = row+1 … n-1`, store the sum. -/
def backRow (A : List Vec) (b : List Bool) (n row : Nat) (xR : List Bool) : List Bool :=
  let s := (List.range (n - (row + 1))).foldl
    (fun acc i => xor acc ((A.getD row vzero) (row + 1 + i) && xR.getD (row + 1 + i) false))
    (b.getD row false)
  xR.set row s

/-- The reverse substitution of `openBox`: rows `n-1` down to `0`, starting
from `xResult` filled with `false`. -/
def backSubst (n : Nat) (A : List Vec) (b : List Bool) : List Bool :=
  (List.range n).foldl (fun xR i => backRow A b n (n - 1 - i) xR) (List.replicate n false)

/-- The replay loop of `openBox`: `if (xResult[i]) box.toggle(i / x, i % x);`. -/
def applySolution (y x : Nat) (g : Grid) (xR : List Bool) : Grid :=
  (List.range (y * x)).foldl
    (fun h i => if xR.getD i false then toggle y x h (i / x) (i % x) else h) g

/-- The solver part of `openBox`, run on the grid state `g` the box holds
after construction: build the system, eliminate, substitute back, replay the
solution, and return `box.isLocked()`. -/
def openBoxOn (y x : Nat) (g : Grid) : Bool :=
  let A := buildA y x
  let b := buildB y x g
  let Uc := gaussElim (y * x) A b
  let xR := backSubst (y * x) Uc.1 Uc.2
  isLocked y x (applySolution y x g xR)

/-- All of `openBox y x`: construct the box (which shuffles from the all-false
grid using the generator outputs `rng`), then run the solver.  `none` models
the undefined behaviour reachable inside `shuffle`. -/
def openBoxRun (y x : Nat) (rng : List Nat) : Option Bool :=
  (shuffle y x allFalse rng).map (openBoxOn y x)

/-- C++ conversion of a `long` (atol result) to `uint32_t`: reduce modulo 2^32. -/
def cppToUInt32 (v : Int) : Nat := (v % (2 ^ 32 : Int)).toNat

/-- The `main` of the program.  `argv` is modelled as the list of the numeric
values `atol` yields for the actual arguments (`atol` returns 0 for
non-numeric input); a missing argument makes `argv[1]`/`argv[2]` an
out-of-bounds access, modelled as `none`.  No validation whatsoever is
performed: the two values flow straight into `openBox`. -/
def mainRun (argv : List Int) (rng : List Nat) : Option (Option Bool) :=
  match argv.get? 1, argv.get? 2 with
  | some ay, some ax => some (openBoxRun (cppToUInt32 ay) (cppToUInt32 ax) rng)
  | _, _ => none

/-- Scale a vector by a boolean. -/
def smul (κ : Bool) (w : Vec) : Vec := if κ then w else vzero

/-- The xor-combination of the rows of `L` selected by the coefficient list. -/
def combL : List Bool → List Vec → Vec
  | [], _ => vzero
  | _, [] => vzero
  | s :: st, v :: vt => if s then vadd v (combL st vt) else combL st vt

/-- Agreement of two vectors on a set of columns. -/
def eqOn (cols : List Nat) (v w : Vec) : Prop := ∀ c ∈ cols, v c = w c

/-- Membership in the GF(2) span of a list of rows, compared only on the
columns in `cols`. -/
def memSpanOn (cols : List Nat) (L : List Vec) (v : Vec) : Prop :=
  ∃ sel : List Bool, eqOn cols v (combL sel L)

/-- Pad-xor of two coefficient lists. -/
def xorSel : List Bool → List Bool → List Bool
  | [], t => t
  | s, [] => s
  | a :: s, b :: t => xor a b :: xorSel s t

/-! ## The elimination as a run consuming a list of active rows -/
/-- Index of the first row with a true entry in column `c`. -/
def firstTrue (c : Nat) : List Vec → Option Nat
  | [] => none
  | v :: t => if v c then some 0 else (firstTrue c t).map (· + 1)

/-- An elimination event: the column processed, the settled row, whether a
pivot was found. -/
structure Ev where
  col : Nat
  row : Vec
  piv : Bool

/-- The elimination as a run: at each column, the first active row with a
true entry is moved to the front (swap), settled as a pivot event, and xored
into the remaining active rows with a true entry in that column; if no row
has one, the front row is settled as a free event.  One row is settled per
column. -/
def erun : List Vec → List Nat → List Ev
  | _, [] => []
  | rows, c :: cs =>
    match firstTrue c rows with
    | some i =>
      let piv := rows.getD i vzero
      ⟨c, piv, true⟩ ::
        erun (((rows.set i (rows.getD 0 vzero)).drop 1).map
          fun v => if v c then vadd v piv else v) cs
    | none => ⟨c, rows.getD 0 vzero, false⟩ :: erun (rows.drop 1) cs

/-- The contents of the pivot events of an event list. -/
def pivRows (evs : List Ev) : List Vec := (evs.filter (·.piv)).map (·.row)

/-- The correspondence between a row of the reference run and the
corresponding row of the perturbed run: equal, or off by the special row. -/
def rowRel (w : Vec) (r r' : Vec) : Prop := r' = r ∨ r' = vadd r w

/-- Correspondence between settled events of the two runs. -/
def EvRel (w : Vec) (e e' : Ev) : Prop :=
  e'.col = e.col ∧ e'.piv = e.piv ∧ rowRel w e.row e'.row

/-! ## Xor sums and row-vector dot products -/
/-- Xor of `f` over the indices in `l`. -/
def xorSum (f : Nat → Bool) (l : List Nat) : Bool :=
  l.foldl (fun acc i => xor acc (f i)) false

/-- The dot product of a row vector with a solution list over columns `< n`. -/
def dotL (v : Vec) (xs : List Bool) (n : Nat) : Bool :=
  xorSum (fun c => v c && xs.getD c false) (List.range n)

/-- Xor-combination of a list of scalars selected by a coefficient list,
matching `combL` on rows. -/
def combLB : List Bool → List Bool → Bool
  | [], _ => false
  | _, [] => false
  | s :: st, v :: vt => if s then xor v (combLB st vt) else combLB st vt

/-- The active rows at stage `col` vanish on the processed columns and on the
columns out of range. -/
def Act (n col : Nat) (A : List Vec) : Prop :=
  ∀ r, col ≤ r → r < n → ∀ c, c < col ∨ n ≤ c → A.getD r vzero c = false

/-- `t` solves every row of the system `(A, b)` (dot products over `n` columns). -/
def SolvedBy (n : Nat) (A : List Vec) (b : List Bool) (t : List Bool) : Prop :=
  ∀ r, r < n → dotL (A.getD r vzero) t n = b.getD r false

/-- What the whole forward elimination guarantees, stage `col` with `m`
columns left: the final matrix pairs its rows `col + k` with the events of
the abstract run, pivot rows carry a leading one, free rows vanish up to
their own column, and the solution set of the system is preserved. -/
structure BridgeInv (n col m : Nat) (A : List Vec) (b : List Bool)
    (U : List Vec) (b' : List Bool) (evs : List Ev) : Prop where
  lenU : U.length = n
  lenb : b'.length = n
  takeU : U.take col = A.take col
  takeb : b'.take col = b.take col
  rows : ∀ k, k < m → U.getD (col + k) vzero = (evs.getD k ⟨0, vzero, false⟩).row
  pivT : ∀ k, k < m → (evs.getD k ⟨0, vzero, false⟩).piv = true →
    U.getD (col + k) vzero (col + k) = true ∧
    ∀ c, c < col + k ∨ n ≤ c → U.getD (col + k) vzero c = false
  pivF : ∀ k, k < m → (evs.getD k ⟨0, vzero, false⟩).piv = false →
    ∀ c, c ≤ col + k ∨ n ≤ c → U.getD (col + k) vzero c = false
  act : Act n (col + m) U
  solved : ∀ t, SolvedBy n U b' t ↔ SolvedBy n A b t

/-- The flip parity `toggle ty tx` applies to cell `(r, c)`: the cell itself,
the row pass, and the column pass. -/
def toggleEff (ySize xSize ty tx r c : Nat) : Bool :=
  xor (decide (r = ty ∧ c = tx))
    (xor (decide (r = ty ∧ c < xSize)) (decide (r < ySize ∧ c = tx)))

/-- Replay a list of toggle positions. -/
def toggleList (ySize xSize : Nat) (g : Grid) (ts : List (Nat × Nat)) : Grid :=
  ts.foldl (fun h p => toggle ySize xSize h p.1 p.2) g

/-- Cell-wise xor of two right-hand sides. -/
def bxor (b₁ b₂ : List Bool) : List Bool := List.zipWith xor b₁ b₂

/-! ## Theorems -/

/-! ## Vector algebra over GF(2) -/
theorem vadd_comm (v w : Vec) : vadd v w = vadd w v := by
  funext k; simp [vadd, Bool.xor_comm]

theorem vadd_assoc (u v w : Vec) : vadd (vadd u v) w = vadd u (vadd v w) := by
  funext k; simp [vadd, Bool.xor_assoc]

theorem vadd_vzero (v : Vec) : vadd v vzero = v := by
  funext k; simp [vadd, vzero]

theorem vadd_cancel_right (v w : Vec) : vadd (vadd v w) w = v := by
  funext k; simp [vadd]

theorem vadd_vzero_left (v : Vec) : vadd vzero v = v := by
  funext k; simp [vadd, vzero]

theorem vadd_left_comm (u v w : Vec) : vadd u (vadd v w) = vadd v (vadd u w) := by
  funext k; simp only [vadd]
  cases u k <;> cases v k <;> cases w k <;> rfl

theorem vadd_quad (v s t : Vec) : vadd (vadd v s) (vadd v t) = vadd s t := by
  funext k; simp only [vadd]
  cases v k <;> cases s k <;> cases t k <;> rfl

theorem smul_apply (κ : Bool) (w : Vec) (c : Nat) : smul κ w c = (κ && w c) := by
  cases κ <;> simp [smul, vzero]

theorem eqOn_refl (cols : List Nat) (v : Vec) : eqOn cols v v := fun _ _ => rfl

theorem combL_nil (sel : List Bool) : combL sel [] = vzero := by
  cases sel <;> rfl

theorem combL_nil_sel (L : List Vec) : combL [] L = vzero := by
  cases L <;> rfl

theorem combL_cons_true (st : List Bool) (v : Vec) (vt : List Vec) :
    combL (true :: st) (v :: vt) = vadd v (combL st vt) := rfl

theorem combL_cons_false (st : List Bool) (v : Vec) (vt : List Vec) :
    combL (false :: st) (v :: vt) = combL st vt := rfl

theorem memSpanOn_zero (cols : List Nat) (L : List Vec) (v : Vec)
    (h : ∀ c ∈ cols, v c = false) : memSpanOn cols L v :=
  ⟨[], fun c hc => by simp [combL, vzero, h c hc]⟩

theorem memSpanOn_congr (cols : List Nat) (L : List Vec) (v v' : Vec)
    (h : eqOn cols v v') (hv : memSpanOn cols L v') : memSpanOn cols L v := by
  obtain ⟨sel, hsel⟩ := hv
  exact ⟨sel, fun c hc => (h c hc).trans (hsel c hc)⟩

theorem combL_replicate_false (t : List Vec) :
    combL (List.replicate t.length false) t = vzero := by
  induction t with
  | nil => rfl
  | cons a t ih => simpa [List.replicate_succ, combL] using ih

theorem memSpanOn_mem (cols : List Nat) (L : List Vec) (v : Vec) (hv : v ∈ L) :
    memSpanOn cols L v := by
  induction L with
  | nil => cases hv
  | cons u t ih =>
    rcases List.mem_cons.mp hv with rfl | hv
    · exact ⟨true :: List.replicate t.length false, fun c hc => by
        simp [combL, combL_replicate_false, vadd_vzero]⟩
    · obtain ⟨sel, hsel⟩ := ih hv
      exact ⟨false :: sel, fun c hc => by simpa [combL] using hsel c hc⟩

theorem xorSel_nil (t : List Bool) : xorSel [] t = t := by cases t <;> rfl

theorem xorSel_nil_right (s : List Bool) : xorSel s [] = s := by cases s <;> rfl

theorem combL_xorSel (sel₁ sel₂ : List Bool) (L : List Vec) :
    combL (xorSel sel₁ sel₂) L = vadd (combL sel₁ L) (combL sel₂ L) := by
  induction sel₁ generalizing sel₂ L with
  | nil =>
    rw [xorSel_nil, combL_nil_sel, vadd_vzero_left]
  | cons a s ih =>
    cases sel₂ with
    | nil =>
      rw [xorSel_nil_right, combL_nil_sel, vadd_vzero]
    | cons b t =>
      cases L with
      | nil => simp [combL_nil, vadd_vzero]
      | cons v vt =>
        have hx : combL (xorSel s t) vt = vadd (combL s vt) (combL t vt) := ih t vt
        cases a <;> cases b <;>
          simp only [xorSel, Bool.xor_false, Bool.false_xor, Bool.xor_self,
            Bool.true_xor, Bool.not_false, combL_cons_true, combL_cons_false, hx]
        · rw [vadd_left_comm]
        · rw [← vadd_assoc]
        · exact (vadd_quad v _ _).symm

theorem memSpanOn_add (cols : List Nat) (L : List Vec) (v u : Vec)
    (hv : memSpanOn cols L v) (hu : memSpanOn cols L u) :
    memSpanOn cols L (vadd v u) := by
  obtain ⟨s₁, h₁⟩ := hv
  obtain ⟨s₂, h₂⟩ := hu
  refine ⟨xorSel s₁ s₂, fun c hc => ?_⟩
  rw [combL_xorSel]
  simp [vadd, h₁ c hc, h₂ c hc]

theorem memSpanOn_combL (cols : List Nat) (L L' : List Vec)
    (h : ∀ u ∈ L', memSpanOn cols L u) (sel : List Bool) :
    memSpanOn cols L (combL sel L') := by
  induction sel generalizing L' with
  | nil => exact memSpanOn_zero _ _ _ (fun c _ => by rw [combL_nil_sel]; rfl)
  | cons a s ih =>
    cases L' with
    | nil => exact memSpanOn_zero _ _ _ (fun c _ => by rw [combL_nil]; rfl)
    | cons u t =>
      have ht : ∀ u ∈ t, memSpanOn cols L u := fun z hz => h z (List.mem_cons_of_mem _ hz)
      cases a with
      | false => simpa [combL] using ih t ht
      | true =>
        exact memSpanOn_add _ _ _ _ (h u (List.mem_cons_self _ _)) (ih t ht)

theorem memSpanOn_trans (cols : List Nat) (L L' : List Vec) (v : Vec)
    (hv : memSpanOn cols L' v) (h : ∀ u ∈ L', memSpanOn cols L u) :
    memSpanOn cols L v := by
  obtain ⟨sel, hsel⟩ := hv
  exact memSpanOn_congr _ _ _ _ hsel (memSpanOn_combL _ _ _ h sel)

theorem combL_vanish (sel : List Bool) (L : List Vec) (c : Nat)
    (h : ∀ u ∈ L, u c = false) : combL sel L c = false := by
  induction sel generalizing L with
  | nil => rw [combL_nil_sel]; rfl
  | cons a s ih =>
    cases L with
    | nil => rw [combL_nil]; rfl
    | cons u t =>
      have ht : ∀ z ∈ t, z c = false := fun z hz => h z (List.mem_cons_of_mem _ hz)
      cases a <;> simp [combL, vadd, ih t ht, h u (List.mem_cons_self _ _)]

theorem firstTrue_cons_true {c : Nat} {v : Vec} {t : List Vec} (hv : v c = true) :
    firstTrue c (v :: t) = some 0 := by
  simp [firstTrue, hv]

theorem firstTrue_cons_false {c : Nat} {v : Vec} {t : List Vec} (hv : v c = false) :
    firstTrue c (v :: t) = (firstTrue c t).map (· + 1) := by
  simp [firstTrue, hv]

theorem firstTrue_eq_none {c : Nat} {rows : List Vec} :
    firstTrue c rows = none ↔ ∀ v ∈ rows, v c = false := by
  induction rows with
  | nil => simp [firstTrue]
  | cons v t ih =>
    cases hv : v c with
    | true => simp [firstTrue_cons_true hv, hv]
    | false =>
      rw [firstTrue_cons_false hv]
      cases hft : firstTrue c t with
      | some j =>
        rw [show Option.map (fun x => x + 1) (some j) = some (j + 1) from rfl]
        simp only [List.mem_cons]
        constructor
        · intro h; cases h
        · intro h
          have := (ih.mpr fun u hu => h u (Or.inr hu))
          rw [this] at hft; cases hft
      | none =>
        rw [show Option.map (fun x => x + 1) (none : Option Nat) = none from rfl]
        simp only [List.mem_cons, true_iff]
        intro u hu
        rcases hu with rfl | hu
        · exact hv
        · exact ih.mp hft u hu

theorem firstTrue_some_lt {c : Nat} {rows : List Vec} {i : Nat}
    (h : firstTrue c rows = some i) : i < rows.length := by
  induction rows generalizing i with
  | nil => simp [firstTrue] at h
  | cons v t ih =>
    cases hv : v c with
    | true =>
      rw [firstTrue_cons_true hv] at h
      cases h; simp
    | false =>
      rw [firstTrue_cons_false hv] at h
      cases hft : firstTrue c t with
      | none => rw [hft] at h; cases h
      | some j =>
        rw [hft] at h
        cases h
        simpa using Nat.succ_lt_succ (ih hft)

theorem firstTrue_some_true {c : Nat} {rows : List Vec} {i : Nat}
    (h : firstTrue c rows = some i) : (rows.getD i vzero) c = true := by
  induction rows generalizing i with
  | nil => simp [firstTrue] at h
  | cons v t ih =>
    cases hv : v c with
    | true =>
      rw [firstTrue_cons_true hv] at h
      cases h; simpa using hv
    | false =>
      rw [firstTrue_cons_false hv] at h
      cases hft : firstTrue c t with
      | none => rw [hft] at h; cases h
      | some j =>
        rw [hft] at h
        cases h
        simpa using ih hft

theorem firstTrue_some_before {c : Nat} {rows : List Vec} {i : Nat}
    (h : firstTrue c rows = some i) : ∀ k < i, (rows.getD k vzero) c = false := by
  induction rows generalizing i with
  | nil => simp [firstTrue] at h
  | cons v t ih =>
    cases hv : v c with
    | true =>
      rw [firstTrue_cons_true hv] at h
      cases h
      intro k hk; omega
    | false =>
      rw [firstTrue_cons_false hv] at h
      cases hft : firstTrue c t with
      | none => rw [hft] at h; cases h
      | some j =>
        rw [hft] at h
        cases h
        intro k hk
        cases k with
        | zero => simpa using hv
        | succ k' =>
          have hkj : k' < j := by simpa using hk
          simpa using ih hft k' hkj

theorem getD_mem_or (l : List α) (i : Nat) (d : α) : l.getD i d ∈ l ∨ l.getD i d = d := by
  induction l generalizing i with
  | nil => right; cases i <;> rfl
  | cons a t ih =>
    cases i with
    | zero => left; simp
    | succ k =>
      rcases ih k with h | h
      · left; simp only [List.getD_cons_succ]; exact List.mem_cons_of_mem _ h
      · right; simpa using h

theorem mem_set_or (l : List α) (i : Nat) (a u : α) (hu : u ∈ l.set i a) :
    u ∈ l ∨ u = a := by
  rcases List.mem_or_eq_of_mem_set hu with h | h
  · exact Or.inl h
  · exact Or.inr h

/-- Any property of rows that holds for `vzero` and is closed under `vadd`
propagates from the initial rows to every settled event. -/
theorem erun_preserve (P : Vec → Prop) (hz : P vzero)
    (hadd : ∀ u v, P u → P v → P (vadd u v)) :
    ∀ cols rows, (∀ v ∈ rows, P v) → ∀ ev ∈ erun rows cols, P ev.row := by
  intro cols
  induction cols with
  | nil => intro rows _ ev hev; simp [erun] at hev
  | cons c cs ih =>
    intro rows hrows ev hev
    simp only [erun] at hev
    cases hft : firstTrue c rows with
    | some i =>
      rw [hft] at hev
      have hpiv : P (rows.getD i vzero) := by
        rcases getD_mem_or rows i vzero with h | h
        · exact hrows _ h
        · rw [h]; exact hz
      rcases List.mem_cons.mp hev with rfl | hev
      · exact hpiv
      · refine ih _ ?_ ev hev
        intro v hv
        obtain ⟨u, hu, rfl⟩ := List.mem_map.mp hv
        have hu' : u ∈ rows.set i (rows.getD 0 vzero) := List.mem_of_mem_drop hu
        have hPu : P u := by
          rcases mem_set_or _ _ _ _ hu' with h | h
          · exact hrows _ h
          · rcases getD_mem_or rows 0 vzero with h0 | h0
            · rw [h]; exact hrows _ h0
            · rw [h, h0]; exact hz
        by_cases huc : u c
        · simpa [huc] using hadd _ _ hPu hpiv
        · simpa [huc] using hPu
    | none =>
      rw [hft] at hev
      rcases List.mem_cons.mp hev with rfl | hev
      · rcases getD_mem_or rows 0 vzero with h | h
        · exact hrows _ h
        · rw [h]; exact hz
      · exact ih _ (fun v hv => hrows v (List.mem_of_mem_drop hv)) ev hev

/-- Settled events vanish at any column where every initial row vanishes. -/
theorem erun_vanish (d : Nat) (cols : List Nat) (rows : List Vec)
    (h : ∀ v ∈ rows, v d = false) : ∀ ev ∈ erun rows cols, ev.row d = false :=
  erun_preserve (fun v => v d = false) rfl
    (fun u v hu hv => by simp [vadd, hu, hv]) cols rows h

theorem erun_length (cols : List Nat) (rows : List Vec) :
    (erun rows cols).length = cols.length := by
  induction cols generalizing rows with
  | nil => rfl
  | cons c cs ih =>
    simp only [erun]
    cases firstTrue c rows <;> simp [ih]

/-! ## Helpers for the run-coupling argument -/
theorem set_append_left (l₁ l₂ : List α) (i : Nat) (a : α) (h : i < l₁.length) :
    (l₁ ++ l₂).set i a = l₁.set i a ++ l₂ := by
  induction l₁ generalizing i with
  | nil => simp at h
  | cons x t ih =>
    cases i with
    | zero => rfl
    | succ k =>
      simp only [List.cons_append, List.set_cons_succ]
      rw [ih k (by simpa using h)]

theorem set_append_right (l₁ l₂ : List α) (i : Nat) (a : α) (h : l₁.length ≤ i) :
    (l₁ ++ l₂).set i a = l₁ ++ l₂.set (i - l₁.length) a := by
  induction l₁ generalizing i with
  | nil => simp
  | cons x t ih =>
    cases i with
    | zero => simp at h
    | succ k =>
      simp only [List.cons_append, List.set_cons_succ, List.length_cons]
      rw [ih k (by simpa using h)]
      simp [Nat.succ_sub_succ]

theorem forall₂_getD {rel : α → β → Prop} {l₁ : List α} {l₂ : List β}
    (h : List.Forall₂ rel l₁ l₂) (i : Nat) (d₁ : α) (d₂ : β) (hi : i < l₁.length) :
    rel (l₁.getD i d₁) (l₂.getD i d₂) := by
  induction h generalizing i with
  | nil => simp at hi
  | cons hr hrest ih =>
    cases i with
    | zero => simpa using hr
    | succ k => simpa using ih k (by simpa using hi)

theorem forall₂_set {rel : α → β → Prop} {l₁ : List α} {l₂ : List β}
    (h : List.Forall₂ rel l₁ l₂) {a : α} {b : β} (hab : rel a b) (i : Nat) :
    List.Forall₂ rel (l₁.set i a) (l₂.set i b) := by
  induction h generalizing i with
  | nil => simp
  | cons hr hrest ih =>
    cases i with
    | zero => exact List.Forall₂.cons hab hrest
    | succ k => exact List.Forall₂.cons hr (ih k)

theorem forall₂_mem_right {rel : α → β → Prop} {l₁ : List α} {l₂ : List β}
    (h : List.Forall₂ rel l₁ l₂) {b : β} (hb : b ∈ l₂) : ∃ a ∈ l₁, rel a b := by
  induction h with
  | nil => cases hb
  | cons hr hrest ih =>
    rcases List.mem_cons.mp hb with rfl | hb
    · exact ⟨_, List.mem_cons_self _ _, hr⟩
    · obtain ⟨a, ha, har⟩ := ih hb
      exact ⟨a, List.mem_cons_of_mem _ ha, har⟩

theorem rowRel_apply {w : Vec} {r x : Vec} (h : rowRel w r x) {c : Nat}
    (hc : w c = false) : x c = r c := by
  rcases h with rfl | rfl
  · rfl
  · simp [vadd, hc]

theorem vadd_vadd_vadd (r p w : Vec) : vadd (vadd r w) (vadd p w) = vadd r p := by
  funext k; simp only [vadd]
  cases r k <;> cases p k <;> cases w k <;> rfl

theorem vadd_rot (r w p : Vec) : vadd (vadd r w) p = vadd (vadd r p) w := by
  funext k; simp only [vadd]
  cases r k <;> cases p k <;> cases w k <;> rfl

theorem rowRel_refl (w : Vec) (r : Vec) : rowRel w r r := Or.inl rfl

theorem EvRel_refl (w : Vec) (e : Ev) : EvRel w e e := ⟨rfl, rfl, rowRel_refl w _⟩

/-- One elimination update preserves the row correspondence, provided the
special row is invisible in the processed column. -/
theorem rowRel_elimOp {w : Vec} {c : Nat} (hc : w c = false)
    {pivR pivM : Vec} (hpiv : rowRel w pivR pivM) {r x : Vec} (h : rowRel w r x) :
    rowRel w (if r c then vadd r pivR else r) (if x c then vadd x pivM else x) := by
  have hxc : x c = r c := rowRel_apply h hc
  rw [hxc]
  cases hrc : r c with
  | false => simpa using h
  | true =>
    simp only [if_true]
    rcases h with rfl | rfl <;> rcases hpiv with rfl | rfl
    · exact Or.inl rfl
    · exact Or.inr (vadd_assoc _ _ _).symm
    · exact Or.inr (vadd_rot _ _ _)
    · exact Or.inl (vadd_vadd_vadd _ _ _)

theorem forall₂_map_elim {w : Vec} {c : Nat} (hc : w c = false)
    {pivR pivM : Vec} (hpiv : rowRel w pivR pivM) {R C : List Vec}
    (h : List.Forall₂ (rowRel w) R C) :
    List.Forall₂ (rowRel w) (R.map fun v => if v c then vadd v pivR else v)
      (C.map fun v => if v c then vadd v pivM else v) := by
  induction h with
  | nil => simp
  | cons hr hrest ih =>
    simpa using List.Forall₂.cons (rowRel_elimOp hc hpiv hr) ih

theorem firstTrue_congr {w : Vec} {c : Nat} (hc : w c = false) {R C : List Vec}
    (h : List.Forall₂ (rowRel w) R C) : firstTrue c C = firstTrue c R := by
  induction h with
  | nil => rfl
  | cons hr hrest ih =>
    rename_i r x R' C'
    have hxc : x c = r c := rowRel_apply hr hc
    cases hrc : r c with
    | true => rw [firstTrue_cons_true (hxc.trans hrc), firstTrue_cons_true hrc]
    | false => rw [firstTrue_cons_false (hxc.trans hrc), firstTrue_cons_false hrc, ih]

theorem firstTrue_append (c : Nat) (l₁ l₂ : List Vec) :
    firstTrue c (l₁ ++ l₂) =
      match firstTrue c l₁ with
      | some i => some i
      | none => (firstTrue c l₂).map (· + l₁.length) := by
  induction l₁ with
  | nil =>
    simp only [List.nil_append, firstTrue, List.length_nil]
    cases firstTrue c l₂ <;> simp
  | cons v t ih =>
    cases hv : v c with
    | true => rw [List.cons_append, firstTrue_cons_true hv, firstTrue_cons_true hv]
    | false =>
      rw [List.cons_append, firstTrue_cons_false hv, firstTrue_cons_false hv, ih]
      cases hft : firstTrue c t with
      | some i => rfl
      | none =>
        cases hfl : firstTrue c l₂ with
        | none => rfl
        | some j =>
          show some (j + t.length + 1) = some (j + (t.length + 1))
          rw [Nat.add_assoc]

/-- The rows of the perturbed run after the special settles: correcting each
row by the special brings back the reference rows. -/
theorem map_correct_back {w : Vec} {p : Nat} (hwp : w p = true) {R C : List Vec}
    (h : List.Forall₂ (rowRel w) R C) (hV2 : ∀ r ∈ R, r p = false) :
    C.map (fun v => if v p then vadd v w else v) = R := by
  induction h with
  | nil => rfl
  | cons hr hrest ih =>
    rename_i r x R' C'
    have hrp : r p = false := hV2 r (List.mem_cons_self _ _)
    have hrest' : ∀ u ∈ R', u p = false := fun u hu => hV2 u (List.mem_cons_of_mem _ hu)
    rcases hr with rfl | rfl
    · rw [List.map_cons, if_neg (by simp [hrp]), ih hrest']
    · rw [List.map_cons, if_pos (by simp [vadd, hrp, hwp]), vadd_cancel_right, ih hrest']

theorem erun_cons_pivot {rows : List Vec} {c : Nat} {cs : List Nat} {i : Nat}
    (h : firstTrue c rows = some i) :
    erun rows (c :: cs) = ⟨c, rows.getD i vzero, true⟩ ::
      erun (((rows.set i (rows.getD 0 vzero)).drop 1).map
        fun v => if v c then vadd v (rows.getD i vzero) else v) cs := by
  simp only [erun, h]

theorem erun_cons_free {rows : List Vec} {c : Nat} {cs : List Nat}
    (h : firstTrue c rows = none) :
    erun rows (c :: cs) = ⟨c, rows.getD 0 vzero, false⟩ :: erun (rows.drop 1) cs := by
  simp only [erun, h]

theorem forall₂_tail {rel : α → β → Prop} {l₁ : List α} {l₂ : List β}
    (h : List.Forall₂ rel l₁ l₂) : List.Forall₂ rel l₁.tail l₂.tail := by
  cases h with
  | nil => exact List.Forall₂.nil
  | cons hr hrest => exact hrest

theorem tail_append_of_ne_nil (l₁ l₂ : List α) (h : l₁ ≠ []) :
    (l₁ ++ l₂).tail = l₁.tail ++ l₂ := by
  cases l₁ with
  | nil => exact absurd rfl h
  | cons a t => rfl

theorem set_ne_nil (l : List α) (i : Nat) (a : α) (h : l ≠ []) : l.set i a ≠ [] := by
  cases l with
  | nil => exact absurd rfl h
  | cons x t => cases i <;> simp

theorem mem_tail_set (l : List α) (i : Nat) (a u : α) (hu : u ∈ (l.set i a).tail) :
    u ∈ l ∨ u = a := by
  have := List.mem_of_mem_tail hu
  exact mem_set_or _ _ _ _ this

/-- The run coupling: the elimination on rows `C₁ ++ w :: C₂` over columns
`D₁ ++ p :: D₂`, where the special row `w` sits exactly at the position of
its pivot column `p`, is invisible in the columns of `D₁`, has `w p = true`,
and every reference row vanishes at `p`, settles `w` as the pivot of `p` and
otherwise yields the reference run's events up to multiples of `w`. -/
theorem coupling (w : Vec) (p : Nat) (hwp : w p = true) :
    ∀ (D₁ D₂ : List Nat) (R₁ R₂ C₁ C₂ : List Vec),
      (∀ c ∈ D₁, w c = false) →
      (∀ r ∈ R₁, r p = false) → (∀ r ∈ R₂, r p = false) →
      List.Forall₂ (rowRel w) R₁ C₁ → List.Forall₂ (rowRel w) R₂ C₂ →
      C₁.length = D₁.length →
      ∃ L₁ L₂, erun (C₁ ++ w :: C₂) (D₁ ++ p :: D₂) = L₁ ++ ⟨p, w, true⟩ :: L₂ ∧
        L₁.length = D₁.length ∧
        List.Forall₂ (EvRel w) (erun (R₁ ++ R₂) (D₁ ++ D₂)) (L₁ ++ L₂) := by
  intro D₁
  induction D₁ with
  | nil =>
    intro D₂ R₁ R₂ C₁ C₂ _ _ hV2₂ hF₁ hF₂ hlen
    have hC₁ : C₁ = [] := List.length_eq_zero.mp hlen
    subst hC₁
    have hR₁ : R₁ = [] := by cases hF₁; rfl
    subst hR₁
    refine ⟨[], erun R₂ D₂, ?_, rfl, ?_⟩
    · simp only [List.nil_append]
      rw [erun_cons_pivot (firstTrue_cons_true hwp)]
      rw [List.set_cons_zero]
      simp only [List.getD_cons_zero, List.drop_one, List.tail_cons]
      rw [map_correct_back hwp hF₂ hV2₂]
    · simp only [List.nil_append]
      exact List.forall₂_same.mpr fun e _ => EvRel_refl w e
  | cons c D₁t ih =>
    intro D₂ R₁ R₂ C₁ C₂ hV1 hV2₁ hV2₂ hF₁ hF₂ hlen
    have hwc : w c = false := hV1 c (List.mem_cons_self _ _)
    have hV1t : ∀ d ∈ D₁t, w d = false := fun d hd => hV1 d (List.mem_cons_of_mem _ hd)
    cases hF₁ with
    | nil => simp at hlen
    | cons hr₀ hF₁t =>
      rename_i r₀ u R₁t C₁t
      have hV2₁t : ∀ r ∈ R₁t, r p = false := fun r hr => hV2₁ r (List.mem_cons_of_mem _ hr)
      have hr₀p : r₀ p = false := hV2₁ r₀ (List.mem_cons_self _ _)
      have hlent : C₁t.length = D₁t.length := by simpa using hlen
      have hlenR : R₁t.length = C₁t.length := by simpa using hF₁t.length_eq
      have hEq1 : firstTrue c (u :: C₁t) = firstTrue c (r₀ :: R₁t) :=
        firstTrue_congr hwc (List.Forall₂.cons hr₀ hF₁t)
      have hEq2 : firstTrue c C₂ = firstTrue c R₂ := firstTrue_congr hwc hF₂
      have hcolsM : (c :: D₁t) ++ p :: D₂ = c :: (D₁t ++ p :: D₂) := rfl
      have hcolsR : (c :: D₁t) ++ D₂ = c :: (D₁t ++ D₂) := rfl
      rw [hcolsM, hcolsR]
      have hcompM := firstTrue_append c (u :: C₁t) (w :: C₂)
      have hcompR := firstTrue_append c (r₀ :: R₁t) R₂
      rw [hEq1] at hcompM
      rw [firstTrue_cons_false hwc, hEq2] at hcompM
      cases hx : firstTrue c (r₀ :: R₁t) with
      | some i =>
        -- pivot inside the C₁-block, at the same index in both runs
        have hilt : i < R₁t.length + 1 := by simpa using firstTrue_some_lt hx
        rw [hx] at hcompM hcompR
        have hM : firstTrue c ((u :: C₁t) ++ w :: C₂) = some i := hcompM
        have hR : firstTrue c ((r₀ :: R₁t) ++ R₂) = some i := hcompR
        rw [erun_cons_pivot hM, erun_cons_pivot hR]
        have hgetM : ((u :: C₁t) ++ w :: C₂).getD i vzero = (u :: C₁t).getD i vzero :=
          List.getD_append _ _ _ _ (by simpa [hlenR] using hilt)
        have hgetR : ((r₀ :: R₁t) ++ R₂).getD i vzero = (r₀ :: R₁t).getD i vzero :=
          List.getD_append _ _ _ _ (by simpa using hilt)
        have hget0M : ((u :: C₁t) ++ w :: C₂).getD 0 vzero = u := rfl
        have hget0R : ((r₀ :: R₁t) ++ R₂).getD 0 vzero = r₀ := rfl
        set pivM := (u :: C₁t).getD i vzero with hpivM
        set pivR := (r₀ :: R₁t).getD i vzero with hpivR
        have hpivRel : rowRel w pivR pivM :=
          forall₂_getD (List.Forall₂.cons hr₀ hF₁t) i _ _ (by simpa using hilt)
        have hpivRp : pivR p = false := by
          rcases getD_mem_or (r₀ :: R₁t) i vzero with h | h
          · exact hV2₁ _ h
          · rw [hpivR, h]; rfl
        -- structure of the remaining rows
        have hsetM : ((u :: C₁t) ++ w :: C₂).set i u = ((u :: C₁t).set i u) ++ w :: C₂ :=
          set_append_left _ _ _ _ (by simp; omega)
        have hdropM : ((((u :: C₁t) ++ w :: C₂).set i u).drop 1) =
            ((u :: C₁t).set i u).tail ++ w :: C₂ := by
          rw [hsetM, List.drop_one, tail_append_of_ne_nil _ _ (set_ne_nil _ _ _ (by simp))]
        have hsetR : ((r₀ :: R₁t) ++ R₂).set i r₀ = ((r₀ :: R₁t).set i r₀) ++ R₂ :=
          set_append_left _ _ _ _ (by simp; omega)
        have hdropR : ((((r₀ :: R₁t) ++ R₂).set i r₀).drop 1) =
            ((r₀ :: R₁t).set i r₀).tail ++ R₂ := by
          rw [hsetR, List.drop_one, tail_append_of_ne_nil _ _ (set_ne_nil _ _ _ (by simp))]
        rw [hgetM, hgetR, hget0M, hget0R, hdropM, hdropR]
        set T := ((u :: C₁t).set i u).tail with hT
        set TR := ((r₀ :: R₁t).set i r₀).tail with hTR
        have hFt : List.Forall₂ (rowRel w) TR T :=
          forall₂_tail (forall₂_set (List.Forall₂.cons hr₀ hF₁t) hr₀ i)
        have hTlen : T.length = D₁t.length := by
          rw [hT]; simp [hlent]
        have hV2T : ∀ r ∈ TR, r p = false := by
          intro r hr
          rcases mem_tail_set _ _ _ _ hr with h | h
          · exact hV2₁ _ h
          · rw [h]; exact hr₀p
        -- elimination step on both sides
        rw [List.map_append, List.map_append, List.map_cons, if_neg (by simp [hwc])]
        obtain ⟨L₁', L₂', hrun, hlen', hF'⟩ :=
          ih D₂ (TR.map fun v => if v c then vadd v pivR else v)
            (R₂.map fun v => if v c then vadd v pivR else v)
            (T.map fun v => if v c then vadd v pivM else v)
            (C₂.map fun v => if v c then vadd v pivM else v)
            hV1t
            (by
              intro r hr
              obtain ⟨v, hv, rfl⟩ := List.mem_map.mp hr
              have hvp : v p = false := hV2T v hv
              by_cases hvc : v c
              · simp [hvc, vadd, hvp, hpivRp]
              · simp [hvc, hvp])
            (by
              intro r hr
              obtain ⟨v, hv, rfl⟩ := List.mem_map.mp hr
              have hvp : v p = false := hV2₂ v hv
              by_cases hvc : v c
              · simp [hvc, vadd, hvp, hpivRp]
              · simp [hvc, hvp])
            (forall₂_map_elim hwc hpivRel hFt)
            (forall₂_map_elim hwc hpivRel hF₂)
            (by simp [hTlen])
        refine ⟨⟨c, pivM, true⟩ :: L₁', L₂', ?_, ?_, ?_⟩
        · rw [hrun]; rfl
        · simp [hlen']
        · rw [List.cons_append]
          exact List.Forall₂.cons ⟨rfl, rfl, hpivRel⟩ hF'
      | none =>
        rw [hx] at hcompM hcompR
        cases hy : firstTrue c R₂ with
        | some j =>
          -- pivot inside the C₂-block; indices differ by one across the runs
          have hjlt : j < R₂.length := firstTrue_some_lt hy
          have hjltC : j < C₂.length := by rwa [hF₂.length_eq] at hjlt
          rw [hy] at hcompM hcompR
          have hM : firstTrue c ((u :: C₁t) ++ w :: C₂) =
              some (j + 1 + (C₁t.length + 1)) := by
            rw [hcompM]; rfl
          have hR : firstTrue c ((r₀ :: R₁t) ++ R₂) = some (j + (R₁t.length + 1)) := by
            rw [hcompR]; rfl
          rw [erun_cons_pivot hM, erun_cons_pivot hR]
          have hgetM : ((u :: C₁t) ++ w :: C₂).getD (j + 1 + (C₁t.length + 1)) vzero =
              C₂.getD j vzero := by
            rw [List.getD_append_right _ _ _ _ (by simp only [List.length_cons, List.length_append]; omega)]
            simp [Nat.add_sub_cancel]
          have hgetR : ((r₀ :: R₁t) ++ R₂).getD (j + (R₁t.length + 1)) vzero =
              R₂.getD j vzero := by
            rw [List.getD_append_right _ _ _ _ (by simp only [List.length_cons, List.length_append]; omega)]
            congr 1
            simp
          set pivM := C₂.getD j vzero with hpivM
          set pivR := R₂.getD j vzero with hpivR
          have hpivRel : rowRel w pivR pivM := forall₂_getD hF₂ j _ _ hjlt
          have hpivRp : pivR p = false := by
            rcases getD_mem_or R₂ j vzero with h | h
            · exact hV2₂ _ h
            · rw [hpivR, h]; rfl
          have hsetM : ((u :: C₁t) ++ w :: C₂).set (j + 1 + (C₁t.length + 1)) u =
              (u :: C₁t) ++ w :: C₂.set j u := by
            rw [set_append_right _ _ _ _ (by simp only [List.length_cons, List.length_append]; omega)]
            congr 1
            have : j + 1 + (C₁t.length + 1) - (u :: C₁t).length = j + 1 := by
              simp only [List.length_cons]
              omega
            rw [this, List.set_cons_succ]
          have hsetR : ((r₀ :: R₁t) ++ R₂).set (j + (R₁t.length + 1)) r₀ =
              (r₀ :: R₁t) ++ R₂.set j r₀ := by
            rw [set_append_right _ _ _ _ (by simp only [List.length_cons, List.length_append]; omega)]
            congr 1
            simp
          have hget0M : ((u :: C₁t) ++ w :: C₂).getD 0 vzero = u := rfl
          have hget0R : ((r₀ :: R₁t) ++ R₂).getD 0 vzero = r₀ := rfl
          rw [hget0M, hget0R, hgetM, hgetR, hsetM, hsetR]
          rw [List.drop_one, List.drop_one, tail_append_of_ne_nil _ _ (by simp),
            tail_append_of_ne_nil _ _ (by simp)]
          simp only [List.tail_cons]
          rw [List.map_append, List.map_append, List.map_cons, if_neg (by simp [hwc])]
          obtain ⟨L₁', L₂', hrun, hlen', hF'⟩ :=
            ih D₂ (R₁t.map fun v => if v c then vadd v pivR else v)
              ((R₂.set j r₀).map fun v => if v c then vadd v pivR else v)
              (C₁t.map fun v => if v c then vadd v pivM else v)
              ((C₂.set j u).map fun v => if v c then vadd v pivM else v)
              hV1t
              (by
                intro r hr
                obtain ⟨v, hv, rfl⟩ := List.mem_map.mp hr
                have hvp : v p = false := hV2₁t v hv
                by_cases hvc : v c
                · simp [hvc, vadd, hvp, hpivRp]
                · simp [hvc, hvp])
              (by
                intro r hr
                obtain ⟨v, hv, rfl⟩ := List.mem_map.mp hr
                have hvp : v p = false := by
                  rcases mem_set_or _ _ _ _ hv with h | h
                  · exact hV2₂ _ h
                  · rw [h]; exact hr₀p
                by_cases hvc : v c
                · simp [hvc, vadd, hvp, hpivRp]
                · simp [hvc, hvp])
              (forall₂_map_elim hwc hpivRel hF₁t)
              (forall₂_map_elim hwc hpivRel (forall₂_set hF₂ hr₀ j))
              (by simp [hlent])
          refine ⟨⟨c, pivM, true⟩ :: L₁', L₂', ?_, ?_, ?_⟩
          · rw [hrun]; rfl
          · simp [hlen']
          · rw [List.cons_append]
            exact List.Forall₂.cons ⟨rfl, rfl, hpivRel⟩ hF'
        | none =>
          -- free column in both runs
          rw [hy] at hcompM hcompR
          have hM : firstTrue c ((u :: C₁t) ++ w :: C₂) = none := by rw [hcompM]; rfl
          have hR : firstTrue c ((r₀ :: R₁t) ++ R₂) = none := by rw [hcompR]; rfl
          rw [erun_cons_free hM, erun_cons_free hR]
          simp only [List.drop_one]
          rw [tail_append_of_ne_nil _ _ (by simp), tail_append_of_ne_nil _ _ (by simp)]
          simp only [List.tail_cons]
          obtain ⟨L₁', L₂', hrun, hlen', hF'⟩ :=
            ih D₂ R₁t R₂ C₁t C₂ hV1t hV2₁t hV2₂ hF₁t hF₂ hlent
          refine ⟨⟨c, u, false⟩ :: L₁', L₂', ?_, ?_, ?_⟩
          · rw [hrun]; rfl
          · simp [hlen']
          · rw [List.cons_append]
            exact List.Forall₂.cons ⟨rfl, rfl, hr₀⟩ hF'

theorem pivRows_cons_true (c : Nat) (v : Vec) (evs : List Ev) :
    pivRows (⟨c, v, true⟩ :: evs) = v :: pivRows evs := by
  simp [pivRows, List.filter_cons]

theorem pivRows_cons_false (c : Nat) (v : Vec) (evs : List Ev) :
    pivRows (⟨c, v, false⟩ :: evs) = pivRows evs := by
  simp [pivRows, List.filter_cons]

theorem pivRows_append (l₁ l₂ : List Ev) :
    pivRows (l₁ ++ l₂) = pivRows l₁ ++ pivRows l₂ := by
  simp [pivRows, List.filter_append]

theorem mem_pivRows_of {e : Ev} {evs : List Ev} (he : e ∈ evs) (hp : e.piv = true) :
    e.row ∈ pivRows evs :=
  List.mem_map_of_mem _ (List.mem_filter.mpr ⟨he, by simp [hp]⟩)

theorem mem_pivRows {u : Vec} {evs : List Ev} (hu : u ∈ pivRows evs) :
    ∃ e ∈ evs, e.piv = true ∧ e.row = u := by
  obtain ⟨e, he, rfl⟩ := List.mem_map.mp hu
  have := List.mem_filter.mp he
  exact ⟨e, this.1, by simpa using this.2, rfl⟩

theorem forall₂_pivRows {w : Vec} {evs evs' : List Ev}
    (h : List.Forall₂ (EvRel w) evs evs') :
    List.Forall₂ (rowRel w) (pivRows evs) (pivRows evs') := by
  induction h with
  | nil => simp [pivRows]
  | cons hr hrest ih =>
    rename_i e e' l l'
    obtain ⟨_, hpiv, hrow⟩ := hr
    cases e with
    | mk ec er ep =>
      cases e' with
      | mk fc fr fp =>
        simp only at hpiv hrow
        cases hpiv
        cases ep with
        | true =>
          rw [pivRows_cons_true, pivRows_cons_true]
          exact List.Forall₂.cons hrow ih
        | false =>
          rw [pivRows_cons_false, pivRows_cons_false]
          exact ih

/-- Combinations of pointwise related row lists differ by a multiple of `w`. -/
theorem combL_forall₂_rowRel {w : Vec} {P P' : List Vec}
    (h : List.Forall₂ (rowRel w) P P') (sel : List Bool) :
    ∃ par : Bool, ∀ d, combL sel P' d = xor (combL sel P d) (par && w d) := by
  induction h generalizing sel with
  | nil => exact ⟨false, fun d => by simp [combL_nil]⟩
  | cons hr hrest ih =>
    rename_i r r' l l'
    cases sel with
    | nil => exact ⟨false, fun d => by simp [combL_nil_sel]⟩
    | cons s st =>
      obtain ⟨par, hpar⟩ := ih st
      cases s with
      | false =>
        refine ⟨par, fun d => ?_⟩
        rw [combL_cons_false, combL_cons_false]
        exact hpar d
      | true =>
        rcases hr with h | h
        · refine ⟨par, fun d => ?_⟩
          rw [combL_cons_true, combL_cons_true, h]
          simp only [vadd]
          rw [hpar d]
          exact (Bool.xor_assoc _ _ _).symm
        · refine ⟨!par, fun d => ?_⟩
          rw [combL_cons_true, combL_cons_true, h]
          simp only [vadd]
          rw [hpar d]
          cases w d <;> cases par <;> cases r d <;> cases combL st l d <;> rfl

theorem forall₂_mem_left {rel : α → β → Prop} {l₁ : List α} {l₂ : List β}
    (h : List.Forall₂ rel l₁ l₂) {a : α} (ha : a ∈ l₁) : ∃ b ∈ l₂, rel a b := by
  induction h with
  | nil => cases ha
  | cons hr hrest ih =>
    rcases List.mem_cons.mp ha with rfl | ha
    · exact ⟨_, List.mem_cons_self _ _, hr⟩
    · obtain ⟨b, hb, hbr⟩ := ih ha
      exact ⟨b, List.mem_cons_of_mem _ hb, hbr⟩

theorem mem_take_idx {l : List α} {i : Nat} {a : α} (d : α) (ha : a ∈ l.take i) :
    ∃ k, k < i ∧ k < l.length ∧ l.getD k d = a := by
  induction l generalizing i with
  | nil => simp at ha
  | cons x t ih =>
    cases i with
    | zero => simp at ha
    | succ j =>
      rcases List.mem_cons.mp (by simpa using ha) with rfl | ha'
      · exact ⟨0, by omega, by simp, rfl⟩
      · obtain ⟨k, hk₁, hk₂, hk₃⟩ := ih ha'
        exact ⟨k + 1, by omega, by simpa using Nat.succ_lt_succ hk₂, by simpa using hk₃⟩

theorem mem_drop_idx {l : List α} {i : Nat} {a : α} (d : α) (ha : a ∈ l.drop i) :
    ∃ k, i ≤ k ∧ k < l.length ∧ l.getD k d = a := by
  induction l generalizing i with
  | nil => simp at ha
  | cons x t ih =>
    cases i with
    | zero =>
      simp only [List.drop_zero] at ha
      rcases List.mem_cons.mp ha with rfl | ha'
      · exact ⟨0, Nat.le_refl _, by simp, rfl⟩
      · obtain ⟨k, _, hk₂, hk₃⟩ := ih (i := 0) (by simpa using ha')
        exact ⟨k + 1, by omega, by simpa using Nat.succ_lt_succ hk₂, by simpa using hk₃⟩
    | succ j =>
      obtain ⟨k, hk₁, hk₂, hk₃⟩ := ih (by simpa using ha)
      exact ⟨k + 1, by omega, by simpa using Nat.succ_lt_succ hk₂, by simpa using hk₃⟩

theorem memSpanOn_mono_list (cols : List Nat) (L L' : List Vec) (v : Vec)
    (h : memSpanOn cols L' v) (hsub : ∀ u ∈ L', u ∈ L) : memSpanOn cols L v :=
  memSpanOn_trans cols L L' v h fun u hu => memSpanOn_mem _ _ _ (hsub u hu)

/-- Extend a span certificate over columns `cols` to `c₀ :: cols`, when both
sides vanish at `c₀` and the row list gains a new head. -/
theorem memSpanOn_lift_pivot (c₀ : Nat) (cols : List Nat) (L : List Vec) (u v : Vec)
    (hv : v c₀ = false) (hL : ∀ z ∈ L, z c₀ = false) (h : memSpanOn cols L v) :
    memSpanOn (c₀ :: cols) (u :: L) v := by
  obtain ⟨sel, hsel⟩ := h
  refine ⟨false :: sel, fun d hd => ?_⟩
  rw [combL_cons_false]
  rcases List.mem_cons.mp hd with rfl | hd
  · rw [hv, combL_vanish _ _ _ hL]
  · exact hsel d hd

theorem memSpanOn_lift_free (c₀ : Nat) (cols : List Nat) (L : List Vec) (v : Vec)
    (hv : v c₀ = false) (hL : ∀ z ∈ L, z c₀ = false) (h : memSpanOn cols L v) :
    memSpanOn (c₀ :: cols) L v := by
  obtain ⟨sel, hsel⟩ := h
  refine ⟨sel, fun d hd => ?_⟩
  rcases List.mem_cons.mp hd with rfl | hd
  · rw [hv, combL_vanish _ _ _ hL]
  · exact hsel d hd

theorem smul_mem_spanOn (cols : List Nat) (L : List Vec) (w : Vec) (κ : Bool)
    (hw : w ∈ L) : memSpanOn cols L (smul κ w) := by
  cases κ with
  | true => simpa [smul] using memSpanOn_mem cols L w hw
  | false => exact memSpanOn_zero _ _ _ (fun c _ => rfl)

theorem getD_mem_of_lt {l : List α} {i : Nat} (d : α) (h : i < l.length) :
    l.getD i d ∈ l := by
  induction l generalizing i with
  | nil => simp at h
  | cons a t ih =>
    cases i with
    | zero => simp
    | succ k =>
      simp only [List.getD_cons_succ]
      exact List.mem_cons_of_mem _ (ih (by simpa using h))

theorem set_getD_self {l : List α} {i : Nat} (d : α) (h : i < l.length) :
    l.set i (l.getD i d) = l := by
  induction l generalizing i with
  | nil => simp at h
  | cons a t ih =>
    cases i with
    | zero => simp
    | succ k =>
      simp only [List.getD_cons_succ, List.set_cons_succ]
      rw [ih (by simpa using h)]

theorem forall₂_take {rel : α → β → Prop} {l₁ : List α} {l₂ : List β}
    (h : List.Forall₂ rel l₁ l₂) (n : Nat) :
    List.Forall₂ rel (l₁.take n) (l₂.take n) := by
  induction h generalizing n with
  | nil => simp
  | cons hr hrest ih =>
    cases n with
    | zero => simp
    | succ k =>
      simp only [List.take_succ_cons]
      exact List.Forall₂.cons hr (ih k)

theorem forall₂_drop {rel : α → β → Prop} {l₁ : List α} {l₂ : List β}
    (h : List.Forall₂ rel l₁ l₂) (n : Nat) :
    List.Forall₂ rel (l₁.drop n) (l₂.drop n) := by
  induction h generalizing n with
  | nil => simp
  | cons hr hrest ih =>
    cases n with
    | zero => exact List.Forall₂.cons hr hrest
    | succ k =>
      simp only [List.drop_succ_cons]
      exact ih k

theorem forall₂_append {rel : α → β → Prop} {l₁ l₃ : List α} {l₂ l₄ : List β}
    (h₁ : List.Forall₂ rel l₁ l₂) (h₂ : List.Forall₂ rel l₃ l₄) :
    List.Forall₂ rel (l₁ ++ l₃) (l₂ ++ l₄) := by
  induction h₁ with
  | nil => simpa using h₂
  | cons hr hrest ih => exact List.Forall₂.cons hr ih

theorem smul_true (w : Vec) : smul true w = w := rfl

theorem smul_false (w : Vec) : smul false w = vzero := rfl

theorem xor_coupling_bool (X W par κ : Bool) :
    xor X (κ && W) = xor (xor X (par && W)) (xor par κ && W) := by
  cases X <;> cases W <;> cases par <;> cases κ <;> rfl

/-- Rows settled without a pivot by the elimination of a symmetric system lie
in the span of the pivot rows, compared on the processed columns.  The row
list must agree with the symmetric matrix `S` on the columns, pairing the
`k`-th row with the `k`-th column. -/
theorem symm_free_in_span :
    ∀ (n : Nat) (cols : List Nat) (S : Nat → Nat → Bool) (rows : List Vec),
      cols.length ≤ n →
      List.Forall₂ (fun a v => ∀ d ∈ cols, v d = S a d) cols rows →
      (∀ a ∈ cols, ∀ b ∈ cols, S a b = S b a) →
      ∀ ev ∈ erun rows cols, ev.piv = false →
        memSpanOn cols (pivRows (erun rows cols)) ev.row := by
  intro n
  induction n with
  | zero =>
    intro cols S rows hn _ _ ev hev _
    have hc : cols = [] := List.length_eq_zero.mp (Nat.le_zero.mp hn)
    subst hc
    simp [erun] at hev
  | succ n ihn =>
    intro cols S rows hn hagree hsym ev hev hfree
    cases hagree with
    | nil => simp [erun] at hev
    | cons hag₀ hagt =>
      rename_i c₀ v₀ rest rowst
      have hc₀mem : c₀ ∈ c₀ :: rest := List.mem_cons_self _ _
      have hlenrr : rest.length = rowst.length := hagt.length_eq
      cases hft : firstTrue c₀ (v₀ :: rowst) with
      | none =>
        -- free column: the settled head row vanishes on all columns
        have hallz : ∀ v ∈ (v₀ :: rowst), v c₀ = false := firstTrue_eq_none.mp hft
        have hrw : erun (v₀ :: rowst) (c₀ :: rest) =
            ⟨c₀, v₀, false⟩ :: erun rowst rest := by
          rw [erun_cons_free hft]; rfl
        rw [hrw] at hev ⊢
        rw [pivRows_cons_false]
        have hvant : ∀ v ∈ rowst, v c₀ = false :=
          fun v hv => hallz v (List.mem_cons_of_mem _ hv)
        have hvanEv : ∀ e ∈ erun rowst rest, e.row c₀ = false :=
          erun_vanish c₀ rest rowst hvant
        have hvanPiv : ∀ u ∈ pivRows (erun rowst rest), u c₀ = false := by
          intro u hu
          obtain ⟨e, he, _, rfl⟩ := mem_pivRows hu
          exact hvanEv e he
        rcases List.mem_cons.mp hev with rfl | hev'
        · -- the head event: its row vanishes on every column of the system
          refine memSpanOn_zero _ _ _ ?_
          intro d hd
          show v₀ d = false
          rcases List.mem_cons.mp hd with rfl | hd'
          · exact hallz v₀ (List.mem_cons_self _ _)
          · obtain ⟨v, hv, hrel⟩ := forall₂_mem_left hagt hd'
            have h1 : v₀ d = S c₀ d := hag₀ d hd
            have h2 : S c₀ d = S d c₀ := hsym c₀ hc₀mem d hd
            have h3 : v c₀ = S d c₀ := hrel c₀ hc₀mem
            have h4 : v c₀ = false := hallz v (List.mem_cons_of_mem _ hv)
            rw [h1, h2, ← h3, h4]
        · -- a later event: lift the certificate of the rest of the run
          have hagt' : List.Forall₂ (fun a v => ∀ d ∈ rest, v d = S a d) rest rowst :=
            hagt.imp fun _ _ h d hd => h d (List.mem_cons_of_mem _ hd)
          have hsym' : ∀ a ∈ rest, ∀ b ∈ rest, S a b = S b a :=
            fun a ha b hb =>
              hsym a (List.mem_cons_of_mem _ ha) b (List.mem_cons_of_mem _ hb)
          have hlen' : rest.length ≤ n := by
            have := hn; simp only [List.length_cons] at this; omega
          have := ihn rest S rowst hlen' hagt' hsym' ev hev' hfree
          exact memSpanOn_lift_free c₀ rest _ _ (hvanEv ev hev') hvanPiv this
      | some i =>
        cases i with
        | zero =>
          -- pivot at the head row: the trailing block is the Schur complement
          have hpc : v₀ c₀ = true := by
            have := firstTrue_some_true hft
            simpa using this
          have hrw : erun (v₀ :: rowst) (c₀ :: rest) =
              ⟨c₀, v₀, true⟩ ::
                erun (rowst.map fun v => if v c₀ then vadd v v₀ else v) rest := by
            rw [erun_cons_pivot hft]
            simp only [List.getD_cons_zero, List.set_cons_zero, List.drop_one,
              List.tail_cons]
          rw [hrw] at hev ⊢
          rw [pivRows_cons_true]
          rcases List.mem_cons.mp hev with rfl | hev'
          · simp at hfree
          · have hagt' : List.Forall₂
                (fun a v => ∀ d ∈ rest, v d = (fun a b => xor (S a b) (S a c₀ && S c₀ b)) a d)
                rest (rowst.map fun v => if v c₀ then vadd v v₀ else v) := by
              rw [List.forall₂_map_right_iff]
              refine hagt.imp ?_
              intro a v h d hd
              have hdc : d ∈ c₀ :: rest := List.mem_cons_of_mem _ hd
              have hvc : v c₀ = S a c₀ := h c₀ hc₀mem
              cases hac : S a c₀ with
              | true =>
                rw [if_pos (by simp [hvc, hac])]
                simp only [vadd]
                simp [h d hdc, hag₀ d hdc, hac]
              | false =>
                rw [if_neg (by simp [hvc, hac])]
                simp [h d hdc, hac]
            have hsym' : ∀ a ∈ rest, ∀ b ∈ rest,
                xor (S a b) (S a c₀ && S c₀ b) = xor (S b a) (S b c₀ && S c₀ a) := by
              intro a ha b hb
              have hab : a ∈ c₀ :: rest := List.mem_cons_of_mem _ ha
              have hbb : b ∈ c₀ :: rest := List.mem_cons_of_mem _ hb
              rw [hsym a hab b hbb, hsym a hab c₀ hc₀mem, hsym c₀ hc₀mem b hbb,
                Bool.and_comm]
            have hlen' : rest.length ≤ n := by
              have := hn; simp only [List.length_cons] at this; omega
            have hspan := ihn rest _ _ hlen' hagt' hsym' ev hev' hfree
            have hvan : ∀ v ∈ (rowst.map fun v => if v c₀ then vadd v v₀ else v),
                v c₀ = false := by
              intro v hv
              obtain ⟨u, _, rfl⟩ := List.mem_map.mp hv
              by_cases huc : u c₀
              · simp [huc, vadd, hpc]
              · simp [huc]
            have hvanEv : ∀ e ∈ erun (rowst.map fun v => if v c₀ then vadd v v₀ else v)
                rest, e.row c₀ = false := erun_vanish c₀ rest _ hvan
            have hvanPiv : ∀ u ∈ pivRows
                (erun (rowst.map fun v => if v c₀ then vadd v v₀ else v) rest),
                u c₀ = false := by
              intro u hu
              obtain ⟨e, he, _, rfl⟩ := mem_pivRows hu
              exact hvanEv e he
            exact memSpanOn_lift_pivot c₀ rest _ v₀ ev.row (hvanEv ev hev') hvanPiv hspan
        | succ i' =>
          -- pivot below the head: the swap case, handled by the run coupling
          have hilt : i' < rowst.length := by
            have := firstTrue_some_lt hft
            simpa using this
          have hiltr : i' < rest.length := by rwa [hlenrr]
          have hv₀c₀ : v₀ c₀ = false := by
            have := firstTrue_some_before hft 0 (Nat.succ_pos _)
            simpa using this
          set up := rowst.getD i' vzero with hup
          set p := rest.getD i' 0 with hp
          have hupag : ∀ d ∈ c₀ :: rest, up d = S p d :=
            forall₂_getD hagt i' 0 vzero hiltr
          have hupc₀ : up c₀ = true := by
            have h1 := firstTrue_some_true hft
            rw [hup]
            simpa only [List.getD_cons_succ] using h1
          have hSpc₀ : S p c₀ = true := by rw [← hupag c₀ hc₀mem]; exact hupc₀
          have hpmem : p ∈ rest := getD_mem_of_lt 0 hiltr
          have hpmemc : p ∈ c₀ :: rest := List.mem_cons_of_mem _ hpmem
          have hwp : v₀ p = true := by
            rw [hag₀ p hpmemc, hsym c₀ hc₀mem p hpmemc, hSpc₀]
          -- decompose the columns and rows around the special position
          have hrest_split : rest = rest.take i' ++ p :: rest.drop (i' + 1) := by
            conv_lhs => rw [← set_getD_self 0 hiltr]
            exact List.set_eq_take_cons_drop _ hiltr
          have hrows_split : rowst.set i' v₀ =
              rowst.take i' ++ v₀ :: rowst.drop (i' + 1) :=
            List.set_eq_take_cons_drop _ hilt
          -- the elimination step swaps the pivot row into the head position
          have hrw : erun (v₀ :: rowst) (c₀ :: rest) =
              ⟨c₀, up, true⟩ ::
                erun (((rowst.take i').map fun v => if v c₀ then vadd v up else v) ++
                  v₀ :: ((rowst.drop (i' + 1)).map fun v => if v c₀ then vadd v up else v))
                  rest := by
            rw [erun_cons_pivot hft]
            simp only [List.getD_cons_succ, List.getD_cons_zero, List.set_cons_succ,
              List.drop_one, List.tail_cons]
            rw [← hup]
            conv_lhs => rw [hrows_split]
            simp [hv₀c₀]
          -- columns of the processed block are invisible to the displaced row
          have hD1w : ∀ c ∈ rest.take i', v₀ c = false := by
            intro c hc
            obtain ⟨k, hk₁, hk₂, hk₃⟩ := mem_take_idx 0 hc
            have hcr : c ∈ rest := by rw [← hk₃]; exact getD_mem_of_lt 0 hk₂
            have hcrc : c ∈ c₀ :: rest := List.mem_cons_of_mem _ hcr
            have hrowk := forall₂_getD hagt k 0 vzero hk₂
            have hzero : (rowst.getD k vzero) c₀ = false := by
              have := firstTrue_some_before hft (k + 1) (by omega)
              simpa only [List.getD_cons_succ] using this
            rw [hag₀ c hcrc, hsym c₀ hc₀mem c hcrc, ← hk₃, ← hrowk c₀ hc₀mem]
            exact hzero
          -- reference rows: the perturbed rows corrected at the pivot column
          have hRp : ∀ (M : List Vec),
              ∀ r ∈ M.map (fun v => vadd v (smul (v p) v₀)), r p = false := by
            intro M r hr
            obtain ⟨v, _, rfl⟩ := List.mem_map.mp hr
            simp [vadd, smul_apply, hwp]
          have hF : ∀ (M : List Vec),
              List.Forall₂ (rowRel v₀) (M.map fun v => vadd v (smul (v p) v₀)) M := by
            intro M
            rw [List.forall₂_map_left_iff]
            refine List.forall₂_same.mpr ?_
            intro v _
            cases hvp : v p with
            | false =>
              left
              rw [smul_false, vadd_vzero]
            | true =>
              right
              rw [smul_true, vadd_cancel_right]
          have hClen : (((rowst.take i').map fun v =>
              if v c₀ then vadd v up else v)).length = (rest.take i').length := by
            simp [hlenrr]
          obtain ⟨L₁, L₂, hLrw, hL₁len, hFevs⟩ :=
            coupling v₀ p hwp (rest.take i') (rest.drop (i' + 1))
              (((rowst.take i').map fun v => if v c₀ then vadd v up else v).map
                fun v => vadd v (smul (v p) v₀))
              (((rowst.drop (i' + 1)).map fun v => if v c₀ then vadd v up else v).map
                fun v => vadd v (smul (v p) v₀))
              ((rowst.take i').map fun v => if v c₀ then vadd v up else v)
              ((rowst.drop (i' + 1)).map fun v => if v c₀ then vadd v up else v)
              hD1w (hRp _) (hRp _) (hF _) (hF _) hClen
          -- the reference system is again symmetric: a two-step Schur complement
          have hDsub : ∀ d ∈ rest.take i' ++ rest.drop (i' + 1), d ∈ c₀ :: rest := by
            intro d hd
            rcases List.mem_append.mp hd with h | h
            · exact List.mem_cons_of_mem _ (List.take_subset _ _ h)
            · exact List.mem_cons_of_mem _ (List.drop_subset _ _ h)
          have hkey : ∀ (a : Nat) (u : Vec), (∀ d ∈ c₀ :: rest, u d = S a d) →
              ∀ d ∈ c₀ :: rest,
                vadd (if u c₀ then vadd u up else u)
                    (smul ((if u c₀ then vadd u up else u) p) v₀) d =
                  xor (xor (S a d) (S a c₀ && S p d))
                    ((xor (S a p) (S a c₀ && S p p)) && S c₀ d) := by
            intro a u hu d hd
            have hud : u d = S a d := hu d hd
            have hup' : u p = S a p := hu p hpmemc
            have huc : u c₀ = S a c₀ := hu c₀ hc₀mem
            have hupd : up d = S p d := hupag d hd
            have hupp : up p = S p p := hupag p hpmemc
            have hvd : v₀ d = S c₀ d := hag₀ d hd
            cases hc : u c₀ with
            | true =>
              have hac : S a c₀ = true := by rw [← huc]; exact hc
              rw [if_pos rfl]
              simp only [vadd, smul_apply]
              rw [hud, hup', hupd, hupp, hvd, hac]
              simp
            | false =>
              have hac : S a c₀ = false := by rw [← huc]; exact hc
              rw [if_neg (by simp)]
              simp only [vadd, smul_apply]
              rw [hud, hup', hvd, hac]
              simp
          have hagR : List.Forall₂
              (fun a v => ∀ d ∈ rest.take i' ++ rest.drop (i' + 1), v d =
                xor (xor (S a d) (S a c₀ && S p d))
                  ((xor (S a p) (S a c₀ && S p p)) && S c₀ d))
              (rest.take i' ++ rest.drop (i' + 1))
              ((((rowst.take i').map fun v => if v c₀ then vadd v up else v).map
                  fun v => vadd v (smul (v p) v₀)) ++
                (((rowst.drop (i' + 1)).map fun v => if v c₀ then vadd v up else v).map
                  fun v => vadd v (smul (v p) v₀))) := by
            refine forall₂_append ?_ ?_
            · rw [List.map_map, List.forall₂_map_right_iff]
              refine (forall₂_take hagt i').imp ?_
              intro a u h d hd
              simpa [Function.comp] using hkey a u h d (hDsub d hd)
            · rw [List.map_map, List.forall₂_map_right_iff]
              refine (forall₂_drop hagt (i' + 1)).imp ?_
              intro a u h d hd
              simpa [Function.comp] using hkey a u h d (hDsub d hd)
          have hsym₂ : ∀ a ∈ rest.take i' ++ rest.drop (i' + 1),
              ∀ b ∈ rest.take i' ++ rest.drop (i' + 1),
              xor (xor (S a b) (S a c₀ && S p b))
                  ((xor (S a p) (S a c₀ && S p p)) && S c₀ b) =
                xor (xor (S b a) (S b c₀ && S p a))
                  ((xor (S b p) (S b c₀ && S p p)) && S c₀ a) := by
            intro a ha b hb
            have ha' := hDsub a ha
            have hb' := hDsub b hb
            rw [hsym b hb' a ha', hsym b hb' c₀ hc₀mem, hsym p hpmemc a ha',
              hsym b hb' p hpmemc, hsym c₀ hc₀mem a ha']
            cases S a b <;> cases S a c₀ <;> cases S c₀ b <;> cases S a p <;>
              cases S p b <;> cases S p p <;> rfl
          have hlenD : (rest.take i' ++ rest.drop (i' + 1)).length ≤ n := by
            have h1 := hn
            have h2 := hiltr
            simp only [List.length_cons] at h1
            simp only [List.length_append, List.length_take, List.length_drop]
            rw [Nat.min_eq_left (Nat.le_of_lt h2)]
            clear * - h1 h2
            omega
          have hspanA := ihn (rest.take i' ++ rest.drop (i' + 1))
            (fun a b => xor (xor (S a b) (S a c₀ && S p b))
              ((xor (S a p) (S a c₀ && S p p)) && S c₀ b))
            _ hlenD hagR hsym₂
          -- locate the settled event inside the coupled run
          rw [hrw] at hev
          rcases List.mem_cons.mp hev with rfl | hev'
          · simp at hfree
          rw [hrest_split] at hev'
          rw [hLrw] at hev'
          have hevM : ev ∈ L₁ ++ L₂ := by
            rcases List.mem_append.mp hev' with h | h
            · exact List.mem_append.mpr (Or.inl h)
            · rcases List.mem_cons.mp h with rfl | h
              · simp at hfree
              · exact List.mem_append.mpr (Or.inr h)
          obtain ⟨evR, hevR, hrel⟩ := forall₂_mem_right hFevs hevM
          obtain ⟨hcol, hpiv, hrowrel⟩ := hrel
          have hfreeR : evR.piv = false := by rw [← hpiv]; exact hfree
          obtain ⟨sel, hsel⟩ := hspanA evR hevR hfreeR
          have hPP' := forall₂_pivRows hFevs
          obtain ⟨par, hpar⟩ := combL_forall₂_rowRel hPP' sel
          -- vanishing at the two settled columns
          have hfc₀ : ∀ u : Vec, (if u c₀ then vadd u up else u) c₀ = false := by
            intro u
            cases hc : u c₀ with
            | true => rw [if_pos rfl]; simp [vadd, hc, hupc₀]
            | false => rw [if_neg (by simp)]; exact hc
          have hCvan : ∀ v ∈ ((rowst.take i').map fun v =>
                if v c₀ then vadd v up else v) ++
              v₀ :: ((rowst.drop (i' + 1)).map fun v => if v c₀ then vadd v up else v),
              v c₀ = false := by
            intro v hv
            rcases List.mem_append.mp hv with h | h
            · obtain ⟨u, _, rfl⟩ := List.mem_map.mp h
              exact hfc₀ u
            · rcases List.mem_cons.mp h with rfl | h
              · exact hv₀c₀
              · obtain ⟨u, _, rfl⟩ := List.mem_map.mp h
                exact hfc₀ u
          have hEvVan := erun_vanish c₀ (rest.take i' ++ p :: rest.drop (i' + 1)) _ hCvan
          have hevc₀ : ev.row c₀ = false := by
            apply hEvVan
            rw [hLrw]
            exact hev'
          have hP'van : ∀ u ∈ pivRows (L₁ ++ L₂), u c₀ = false := by
            intro u hu
            obtain ⟨e, he, _, rfl⟩ := mem_pivRows hu
            apply hEvVan
            rw [hLrw]
            rcases List.mem_append.mp he with h | h
            · exact List.mem_append.mpr (Or.inl h)
            · exact List.mem_append.mpr (Or.inr (List.mem_cons_of_mem _ h))
          have hRvanp : ∀ r ∈ (((rowst.take i').map fun v =>
                if v c₀ then vadd v up else v).map fun v => vadd v (smul (v p) v₀)) ++
              (((rowst.drop (i' + 1)).map fun v => if v c₀ then vadd v up else v).map
                fun v => vadd v (smul (v p) v₀)), r p = false := by
            intro r hr
            rcases List.mem_append.mp hr with h | h
            · exact hRp _ r h
            · exact hRp _ r h
          have hevRp : evR.row p = false := erun_vanish p _ _ hRvanp evR hevR
          have hPvanp : ∀ u ∈ pivRows (erun
              ((((rowst.take i').map fun v => if v c₀ then vadd v up else v).map
                  fun v => vadd v (smul (v p) v₀)) ++
                (((rowst.drop (i' + 1)).map fun v => if v c₀ then vadd v up else v).map
                  fun v => vadd v (smul (v p) v₀)))
              (rest.take i' ++ rest.drop (i' + 1))), u p = false := by
            intro u hu
            obtain ⟨e, he, _, rfl⟩ := mem_pivRows hu
            exact erun_vanish p _ _ hRvanp e he
          have hcombPp := combL_vanish sel _ p hPvanp
          have hcombP'c₀ := combL_vanish sel _ c₀ hP'van
          -- the pivot rows of the whole run
          have hpivfull : pivRows (erun (v₀ :: rowst) (c₀ :: rest)) =
              up :: (pivRows L₁ ++ v₀ :: pivRows L₂) := by
            rw [hrw]
            conv_lhs => rw [hrest_split]
            rw [hLrw, pivRows_cons_true, pivRows_append, pivRows_cons_true]
          have hsub : ∀ u ∈ pivRows (L₁ ++ L₂),
              u ∈ up :: (pivRows L₁ ++ v₀ :: pivRows L₂) := by
            intro u hu
            rw [pivRows_append] at hu
            rcases List.mem_append.mp hu with h | h
            · exact List.mem_cons_of_mem _ (List.mem_append.mpr (Or.inl h))
            · exact List.mem_cons_of_mem _
                (List.mem_append.mpr (Or.inr (List.mem_cons_of_mem _ h)))
          have hv₀M : v₀ ∈ up :: (pivRows L₁ ++ v₀ :: pivRows L₂) :=
            List.mem_cons_of_mem _ (List.mem_append.mpr (Or.inr (List.mem_cons_self _ _)))
          have hfinal : ∀ κ : Bool, (∀ d, ev.row d = xor (evR.row d) (κ && v₀ d)) →
              memSpanOn (c₀ :: rest) (up :: (pivRows L₁ ++ v₀ :: pivRows L₂)) ev.row := by
            intro κ hκ
            refine memSpanOn_congr _ _ _
                (vadd (combL sel (pivRows (L₁ ++ L₂))) (smul (xor par κ) v₀)) ?_ ?_
            · intro d hd
              rcases List.mem_cons.mp hd with rfl | hd'
              · simp [vadd, smul_apply, hcombP'c₀, hv₀c₀, hevc₀]
              · rw [hrest_split] at hd'
                rcases List.mem_append.mp hd' with hdD | hdp
                · have hdDD : d ∈ rest.take i' ++ rest.drop (i' + 1) :=
                    List.mem_append.mpr (Or.inl hdD)
                  rw [hκ d, hsel d hdDD]
                  simp only [vadd, smul_apply]
                  rw [hpar d]
                  exact xor_coupling_bool _ _ _ _
                · rcases List.mem_cons.mp hdp with rfl | hdD
                  · rw [hκ p]
                    simp only [vadd, smul_apply]
                    rw [hpar p, hevRp, hcombPp, hwp]
                    cases par <;> cases κ <;> rfl
                  · have hdDD : d ∈ rest.take i' ++ rest.drop (i' + 1) :=
                      List.mem_append.mpr (Or.inr hdD)
                    rw [hκ d, hsel d hdDD]
                    simp only [vadd, smul_apply]
                    rw [hpar d]
                    exact xor_coupling_bool _ _ _ _
            · refine memSpanOn_add _ _ _ _ ?_ ?_
              · exact memSpanOn_combL _ _ _ (fun u hu => memSpanOn_mem _ _ u (hsub u hu)) sel
              · exact smul_mem_spanOn _ _ v₀ (xor par κ) hv₀M
          rw [hpivfull]
          rcases hrowrel with hre | hre
          · exact hfinal false (fun d => by rw [hre]; simp)
          · exact hfinal true (fun d => by rw [hre]; simp [vadd])

theorem getD_set_self {l : List α} {i : Nat} {a : α} (d : α) (h : i < l.length) :
    (l.set i a).getD i d = a := by
  induction l generalizing i with
  | nil => simp at h
  | cons x t ih =>
    cases i with
    | zero => rfl
    | succ k =>
      simp only [List.set_cons_succ, List.getD_cons_succ]
      exact ih (by simpa using h)

theorem getD_set_ne {l : List α} {i j : Nat} {a : α} (d : α) (h : i ≠ j) :
    (l.set i a).getD j d = l.getD j d := by
  induction l generalizing i j with
  | nil => simp
  | cons x t ih =>
    cases i with
    | zero =>
      cases j with
      | zero => exact absurd rfl h
      | succ m => rfl
    | succ k =>
      cases j with
      | zero => rfl
      | succ m =>
        simp only [List.set_cons_succ, List.getD_cons_succ]
        exact ih (fun hc => h (by rw [hc]))

theorem getD_drop (l : List α) (m k : Nat) (d : α) :
    (l.drop m).getD k d = l.getD (m + k) d := by
  induction l generalizing m with
  | nil => simp
  | cons x t ih =>
    cases m with
    | zero => simp
    | succ m' =>
      simp only [List.drop_succ_cons, List.getD_cons_succ, Nat.succ_add]
      exact ih m'

theorem getD_take {l : List α} {m k : Nat} (d : α) (h : k < m) :
    (l.take m).getD k d = l.getD k d := by
  induction l generalizing m k with
  | nil => simp
  | cons x t ih =>
    cases m with
    | zero => omega
    | succ m' =>
      cases k with
      | zero => rfl
      | succ k' =>
        simp only [List.take_succ_cons, List.getD_cons_succ]
        exact ih (by omega)

theorem getD_map (f : α → β) {l : List α} {k : Nat} (d : α) (d' : β)
    (h : k < l.length) : (l.map f).getD k d' = f (l.getD k d) := by
  induction l generalizing k with
  | nil => simp at h
  | cons x t ih =>
    cases k with
    | zero => rfl
    | succ k' =>
      simp only [List.map_cons, List.getD_cons_succ]
      exact ih (by simpa using h)

theorem getD_append_left {l₁ l₂ : List α} {k : Nat} (d : α) (h : k < l₁.length) :
    (l₁ ++ l₂).getD k d = l₁.getD k d := by
  induction l₁ generalizing k with
  | nil => simp at h
  | cons x t ih =>
    cases k with
    | zero => rfl
    | succ k' =>
      simp only [List.cons_append, List.getD_cons_succ]
      exact ih (by simpa using h)

theorem getD_append_right {l₁ l₂ : List α} {k : Nat} (d : α) (h : l₁.length ≤ k) :
    (l₁ ++ l₂).getD k d = l₂.getD (k - l₁.length) d := by
  induction l₁ generalizing k with
  | nil => simp
  | cons x t ih =>
    cases k with
    | zero => simp at h
    | succ k' =>
      simp only [List.cons_append, List.getD_cons_succ, List.length_cons]
      rw [ih (by simpa using h)]
      simp [Nat.succ_sub_succ]

theorem listext_getD {l₁ l₂ : List α} (d : α) (hlen : l₁.length = l₂.length)
    (h : ∀ k < l₁.length, l₁.getD k d = l₂.getD k d) : l₁ = l₂ := by
  induction l₁ generalizing l₂ with
  | nil => cases l₂ with
    | nil => rfl
    | cons y t => simp at hlen
  | cons x t ih =>
    cases l₂ with
    | nil => simp at hlen
    | cons y t₂ =>
      have h0 : x = y := h 0 (by simp)
      have ht : t = t₂ := by
        refine ih (by simpa using hlen) ?_
        intro k hk
        exact h (k + 1) (by simpa using Nat.succ_lt_succ hk)
      rw [h0, ht]

theorem length_mapWithIdx (f : Nat → α → α) (i : Nat) (l : List α) :
    (mapWithIdx f i l).length = l.length := by
  induction l generalizing i with
  | nil => rfl
  | cons x t ih => simp [mapWithIdx, ih]

theorem getD_mapWithIdx (f : Nat → α → α) {i k : Nat} {l : List α} (d : α)
    (h : k < l.length) : (mapWithIdx f i l).getD k d = f (i + k) (l.getD k d) := by
  induction l generalizing i k with
  | nil => simp at h
  | cons x t ih =>
    cases k with
    | zero => rfl
    | succ k' =>
      simp only [mapWithIdx, List.getD_cons_succ]
      rw [ih (by simpa using h)]
      congr 1
      omega

theorem length_swapIdx (l : List α) (d : α) (i j : Nat) :
    (swapIdx l d i j).length = l.length := by
  simp [swapIdx]

theorem getD_swapIdx_fst {l : List α} {i j : Nat} (d : α) (hi : i < l.length)
    (hj : j < l.length) : (swapIdx l d i j).getD i d = l.getD j d := by
  by_cases hij : i = j
  · subst hij
    rw [swapIdx, getD_set_self d (by simpa using hi)]
  · rw [swapIdx, getD_set_ne d (fun h => hij h.symm), getD_set_self d hi]

theorem getD_swapIdx_snd {l : List α} {i j : Nat} (d : α) (hj : j < l.length) :
    (swapIdx l d i j).getD j d = l.getD i d := by
  rw [swapIdx, getD_set_self d (by simpa using hj)]

theorem getD_swapIdx_other {l : List α} {i j k : Nat} (d : α) (hki : k ≠ i)
    (hkj : k ≠ j) : (swapIdx l d i j).getD k d = l.getD k d := by
  rw [swapIdx, getD_set_ne d (fun h => hkj h.symm), getD_set_ne d (fun h => hki h.symm)]

theorem foldl_xor_init (f : Nat → Bool) (l : List Nat) (a : Bool) :
    l.foldl (fun acc i => xor acc (f i)) a = xor a (xorSum f l) := by
  induction l generalizing a with
  | nil => simp [xorSum]
  | cons i t ih =>
    simp only [xorSum, List.foldl_cons] at *
    rw [ih, ih (xor false (f i))]
    cases a <;> cases f i <;> cases t.foldl (fun acc i => xor acc (f i)) false <;> rfl

theorem xorSum_cons (f : Nat → Bool) (i : Nat) (l : List Nat) :
    xorSum f (i :: l) = xor (f i) (xorSum f l) := by
  rw [xorSum, List.foldl_cons, foldl_xor_init]
  simp

theorem xorSum_nil (f : Nat → Bool) : xorSum f [] = false := rfl

theorem xorSum_append (f : Nat → Bool) (l₁ l₂ : List Nat) :
    xorSum f (l₁ ++ l₂) = xor (xorSum f l₁) (xorSum f l₂) := by
  induction l₁ with
  | nil => simp [xorSum_nil]
  | cons i t ih =>
    rw [List.cons_append, xorSum_cons, xorSum_cons, ih, Bool.xor_assoc]

theorem xorSum_congr {f g : Nat → Bool} {l : List Nat}
    (h : ∀ i ∈ l, f i = g i) : xorSum f l = xorSum g l := by
  induction l with
  | nil => rfl
  | cons i t ih =>
    rw [xorSum_cons, xorSum_cons, h i (List.mem_cons_self _ _),
      ih (fun j hj => h j (List.mem_cons_of_mem _ hj))]

theorem xorSum_false (l : List Nat) : xorSum (fun _ => false) l = false := by
  induction l with
  | nil => rfl
  | cons i t ih => rw [xorSum_cons, ih]; rfl

theorem xorSum_zero {f : Nat → Bool} {l : List Nat} (h : ∀ i ∈ l, f i = false) :
    xorSum f l = false := by
  rw [xorSum_congr h, xorSum_false]

theorem xorSum_xor (f g : Nat → Bool) (l : List Nat) :
    xorSum (fun i => xor (f i) (g i)) l = xor (xorSum f l) (xorSum g l) := by
  induction l with
  | nil => rfl
  | cons i t ih =>
    rw [xorSum_cons, xorSum_cons, xorSum_cons, ih]
    cases f i <;> cases g i <;> cases xorSum f t <;> cases xorSum g t <;> rfl

theorem xorSum_map (f : Nat → Bool) (g : Nat → Nat) (l : List Nat) :
    xorSum f (l.map g) = xorSum (fun i => f (g i)) l := by
  induction l with
  | nil => rfl
  | cons i t ih => rw [List.map_cons, xorSum_cons, xorSum_cons, ih]

theorem dotL_vadd (u v : Vec) (xs : List Bool) (n : Nat) :
    dotL (vadd u v) xs n = xor (dotL u xs n) (dotL v xs n) := by
  rw [dotL, dotL, dotL, ← xorSum_xor]
  refine xorSum_congr ?_
  intro c _
  simp only [vadd]
  cases u c <;> cases v c <;> cases xs.getD c false <;> rfl

theorem dotL_vzero (xs : List Bool) (n : Nat) : dotL vzero xs n = false :=
  xorSum_zero (fun c _ => by simp [vzero])

theorem combLB_nil (sel : List Bool) : combLB sel [] = false := by
  cases sel <;> rfl

theorem combLB_nil_sel (P : List Bool) : combLB [] P = false := by
  cases P <;> rfl

theorem dotL_combL (xs : List Bool) (n : Nat) :
    ∀ (sel : List Bool) (P : List Vec),
      dotL (combL sel P) xs n = combLB sel (P.map fun v => dotL v xs n) := by
  intro sel
  induction sel with
  | nil =>
    intro P
    rw [combL_nil_sel, dotL_vzero]
    cases P <;> rfl
  | cons s st ih =>
    intro P
    cases P with
    | nil => rw [combL_nil, dotL_vzero, List.map_nil, combLB_nil]
    | cons v vt =>
      cases s with
      | false =>
        rw [combL_cons_false, ih]
        rfl
      | true =>
        rw [combL_cons_true, dotL_vadd, ih]
        rfl

theorem combLB_congr : ∀ (sel : List Bool) (P Q : List Bool),
    List.Forall₂ (fun a b => a = b) P Q → combLB sel P = combLB sel Q := by
  intro sel
  induction sel with
  | nil => intro P Q _; rw [combLB_nil_sel, combLB_nil_sel]
  | cons s st ih =>
    intro P Q h
    cases h with
    | nil => rfl
    | cons h1 hrest =>
      cases s with
      | false => exact ih _ _ hrest
      | true => simp only [combLB, if_true]; rw [h1, ih _ _ hrest]

/-! ## The pivot search -/
theorem findPivot_spec (A : List Vec) (col : Nat) : ∀ d p, A.length - p ≤ d →
    p ≤ findPivot A col p ∧
    (p ≤ A.length → findPivot A col p ≤ A.length) ∧
    (findPivot A col p < A.length → A.getD (findPivot A col p) vzero col = true) ∧
    (∀ q, p ≤ q → q < findPivot A col p → A.getD q vzero col = false) ∧
    (∀ q, p ≤ q → A.getD q vzero col = true → findPivot A col p ≤ q) := by
  intro d
  induction d with
  | zero =>
    intro p hp
    have hge : A.length ≤ p := by omega
    rw [findPivot]
    rw [dif_neg (by omega)]
    refine ⟨Nat.le_refl _, fun h => h, fun h => absurd h (by omega), ?_, ?_⟩
    · intro q h1 h2; omega
    · intro q hq _; exact hq
  | succ d ih =>
    intro p hp
    by_cases hplen : p < A.length
    · rw [findPivot, dif_pos hplen]
      cases hAp : (A.getD p vzero) col with
      | true =>
        rw [if_pos rfl]
        refine ⟨Nat.le_refl _, fun _ => Nat.le_of_lt hplen, fun _ => hAp, ?_, ?_⟩
        · intro q h1 h2; omega
        · intro q hq _; exact hq
      | false =>
        rw [if_neg (by simp)]
        obtain ⟨ih1, ih2, ih3, ih4, ih5⟩ := ih (p + 1) (by omega)
        refine ⟨by omega, fun _ => ih2 (by omega), ih3, ?_, ?_⟩
        · intro q h1 h2
          rcases Nat.eq_or_lt_of_le h1 with rfl | h1'
          · exact hAp
          · exact ih4 q h1' h2
        · intro q hq hAq
          rcases Nat.eq_or_lt_of_le hq with rfl | hq'
          · rw [hAq] at hAp; cases hAp
          · exact ih5 q hq' hAq
    · rw [findPivot, dif_neg hplen]
      refine ⟨Nat.le_refl _, fun h => h, fun h => absurd h (by omega), ?_, ?_⟩
      · intro q h1 h2; omega
      · intro q hq _; exact hq

theorem firstTrue_none_findPivot {A : List Vec} {col : Nat} (hcol : col ≤ A.length)
    (h : firstTrue col (A.drop col) = none) : findPivot A col col = A.length := by
  obtain ⟨h1, h2, h3, _, _⟩ := findPivot_spec A col (A.length - col) col (Nat.le_refl _)
  have hle := h2 hcol
  rcases Nat.eq_or_lt_of_le hle with he | hlt
  · exact he
  · exfalso
    have hmem : A.getD (findPivot A col col) vzero ∈ A.drop col := by
      have : findPivot A col col - col < (A.drop col).length := by
        simp only [List.length_drop]; omega
      have := getD_mem_of_lt vzero this
      rwa [getD_drop, Nat.add_sub_cancel' h1] at this
    have := firstTrue_eq_none.mp h _ hmem
    rw [h3 hlt] at this
    cases this

theorem firstTrue_some_findPivot {A : List Vec} {col j : Nat}
    (h : firstTrue col (A.drop col) = some j) :
    findPivot A col col = col + j ∧ col + j < A.length := by
  have hjlt : j < (A.drop col).length := firstTrue_some_lt h
  have hlt : col + j < A.length := by
    simp only [List.length_drop] at hjlt; omega
  have htrue : A.getD (col + j) vzero col = true := by
    have := firstTrue_some_true h
    rwa [getD_drop] at this
  have hbefore : ∀ k < j, A.getD (col + k) vzero col = false := by
    intro k hk
    have := firstTrue_some_before h k hk
    rwa [getD_drop] at this
  obtain ⟨h1, _, h3, h4, h5⟩ := findPivot_spec A col (A.length - col) col (Nat.le_refl _)
  have hub : findPivot A col col ≤ col + j := h5 _ (by omega) htrue
  rcases Nat.eq_or_lt_of_le hub with he | hlt'
  · exact ⟨he, hlt⟩
  · exfalso
    have hfound := h3 (by omega)
    have : A.getD (col + (findPivot A col col - col)) vzero col = false :=
      hbefore _ (by omega)
    rw [Nat.add_sub_cancel' h1, hfound] at this
    cases this

/-! ## One step of the Gauss loop -/
theorem gaussStep_free {n col : Nat} {A : List Vec} {b : List Bool}
    (hA : A.length = n) (hcol : col ≤ n)
    (hft : firstTrue col (A.drop col) = none) : gaussStep n col (A, b) = (A, b) := by
  have hp : findPivot A col col = A.length :=
    firstTrue_none_findPivot (by omega) hft
  simp only [gaussStep, hp, hA]
  simp

theorem gaussStep_pivot_eq {n col : Nat} {A : List Vec} {b : List Bool} {j : Nat}
    (hA : A.length = n) (hft : firstTrue col (A.drop col) = some j) :
    gaussStep n col (A, b) =
      (mapWithIdx (elimRowOp n col ((swapIdx A vzero col (col + j)).getD col vzero)) 0
        (swapIdx A vzero col (col + j)),
       mapWithIdx (fun r βr =>
          if col < r ∧ ((swapIdx A vzero col (col + j)).getD r vzero) col then
            xor βr ((swapIdx b false col (col + j)).getD col false)
          else βr) 0
        (swapIdx b false col (col + j))) := by
  obtain ⟨hFP, hpn⟩ := firstTrue_some_findPivot hft
  simp only [gaussStep, hFP]
  rw [if_neg (by omega)]

/-- Under the active-row invariant the partial xor of the source equals the
whole-row xor. -/
theorem elimRowOp_eq_vadd {n col r : Nat} {piv v : Vec}
    (hpiv : ∀ c, c < col ∨ n ≤ c → piv c = false)
    (hv : ∀ c, c < col ∨ n ≤ c → v c = false) (hr : col < r) :
    elimRowOp n col piv r v = if v col then vadd v piv else v := by
  cases hvc : v col with
  | false =>
    rw [if_neg (by simp)]
    rw [elimRowOp, if_neg (by simp [hvc, hr])]
  | true =>
    rw [if_pos rfl, elimRowOp, if_pos ⟨hr, hvc⟩]
    funext c
    by_cases hc : col ≤ c ∧ c < n
    · rw [if_pos hc]; rfl
    · rw [if_neg hc]
      have hcout : c < col ∨ n ≤ c := by omega
      simp [vadd, hpiv c hcout, hv c hcout]

theorem getD_mapWithIdx0 (f : Nat → α → α) {k : Nat} {l : List α} (d : α)
    (h : k < l.length) : (mapWithIdx f 0 l).getD k d = f k (l.getD k d) := by
  rw [getD_mapWithIdx f d h, Nat.zero_add]

theorem solvedBy_swap {n i j : Nat} {A : List Vec} {b : List Bool} (t : List Bool)
    (hA : A.length = n) (hb : b.length = n) (hi : i < n) (hj : j < n) :
    SolvedBy n (swapIdx A vzero i j) (swapIdx b false i j) t ↔ SolvedBy n A b t := by
  constructor
  · intro h r hr
    by_cases hri : r = i
    · subst hri
      have := h j hj
      rwa [getD_swapIdx_snd vzero (by omega), getD_swapIdx_snd false (by omega)] at this
    · by_cases hrj : r = j
      · subst hrj
        have := h i hi
        rwa [getD_swapIdx_fst vzero (by omega) (by omega),
          getD_swapIdx_fst false (by omega) (by omega)] at this
      · have := h r hr
        rwa [getD_swapIdx_other vzero hri hrj, getD_swapIdx_other false hri hrj] at this
  · intro h r hr
    by_cases hri : r = i
    · subst hri
      rw [getD_swapIdx_fst vzero (by omega) (by omega),
        getD_swapIdx_fst false (by omega) (by omega)]
      exact h j hj
    · by_cases hrj : r = j
      · subst hrj
        rw [getD_swapIdx_snd vzero (by omega), getD_swapIdx_snd false (by omega)]
        exact h i hi
      · rw [getD_swapIdx_other vzero hri hrj, getD_swapIdx_other false hri hrj]
        exact h r hr

/-- Everything one pivoting Gauss iteration does, under the stage invariant:
lengths are preserved, the settled prefix is untouched, the pivot row lands at
index `col`, the trailing block is exactly the next row list of the abstract
run, the invariant advances, and the solution set is unchanged. -/
theorem gaussStep_pivot {n col j : Nat} {A : List Vec} {b : List Bool}
    (hA : A.length = n) (hb : b.length = n) (hcol : col < n) (hAct : Act n col A)
    (hft : firstTrue col (A.drop col) = some j) :
    (gaussStep n col (A, b)).1.length = n ∧
    (gaussStep n col (A, b)).2.length = n ∧
    (gaussStep n col (A, b)).1.take col = A.take col ∧
    (gaussStep n col (A, b)).2.take col = b.take col ∧
    (gaussStep n col (A, b)).1.getD col vzero = A.getD (col + j) vzero ∧
    (gaussStep n col (A, b)).1.drop (col + 1) =
      (((A.drop col).set j ((A.drop col).getD 0 vzero)).drop 1).map
        (fun v => if v col then vadd v (A.getD (col + j) vzero) else v) ∧
    Act n (col + 1) (gaussStep n col (A, b)).1 ∧
    (∀ t, SolvedBy n (gaussStep n col (A, b)).1 (gaussStep n col (A, b)).2 t ↔
      SolvedBy n A b t) := by
  obtain ⟨hFP, hpn'⟩ := firstTrue_some_findPivot hft
  have hpn : col + j < n := by omega
  rw [gaussStep_pivot_eq hA hft]
  set A1 := swapIdx A vzero col (col + j) with hA1def
  set b1 := swapIdx b false col (col + j) with hb1def
  have hA1len : A1.length = n := by rw [hA1def, length_swapIdx, hA]
  have hb1len : b1.length = n := by rw [hb1def, length_swapIdx, hb]
  have hA1col : A1.getD col vzero = A.getD (col + j) vzero := by
    rw [hA1def]
    exact getD_swapIdx_fst vzero (by omega) (by omega)
  rw [hA1col]
  set piv := A.getD (col + j) vzero with hpivdef
  have hpivcol : piv col = true := by
    rw [hpivdef]
    have := firstTrue_some_true hft
    rwa [getD_drop] at this
  have hpivvan : ∀ c, c < col ∨ n ≤ c → piv c = false := fun c hc =>
    hAct (col + j) (by omega) hpn c hc
  have hActA1 : Act n col A1 := by
    intro r hr1 hr2 c hc
    by_cases hrc : r = col
    · rw [hrc, hA1def, getD_swapIdx_fst vzero (by omega) (by omega)]
      exact hAct (col + j) (by omega) hpn c hc
    · by_cases hrp : r = col + j
      · rw [hrp, hA1def, getD_swapIdx_snd vzero (by omega)]
        exact hAct col (Nat.le_refl _) hcol c hc
      · rw [hA1def, getD_swapIdx_other vzero hrc hrp]
        exact hAct r hr1 hr2 c hc
  have hUcol : (mapWithIdx (elimRowOp n col piv) 0 A1).getD col vzero = piv := by
    rw [getD_mapWithIdx0 _ vzero (by omega)]
    rw [elimRowOp, if_neg (fun hcon => absurd hcon.1 (by omega))]
    rw [hA1col]
  have hb2col : (mapWithIdx (fun r βr =>
      if col < r ∧ (A1.getD r vzero) col then xor βr (b1.getD col false) else βr) 0
      b1).getD col false = b1.getD col false := by
    rw [getD_mapWithIdx0 _ false (by omega)]
    rw [if_neg (fun hcon => absurd hcon.1 (by omega))]
  refine ⟨?_, ?_, ?_, ?_, hUcol, ?_, ?_, ?_⟩
  · rw [length_mapWithIdx, hA1len]
  · rw [length_mapWithIdx, hb1len]
  · refine listext_getD vzero ?_ ?_
    · simp [length_mapWithIdx, hA1len, hA]
    · intro k hk
      have hkcol : k < col := by
        simp only [List.length_take, length_mapWithIdx, hA1len] at hk
        omega
      rw [getD_take vzero hkcol, getD_take vzero hkcol,
        getD_mapWithIdx0 _ vzero (by omega)]
      rw [elimRowOp, if_neg (fun hcon => absurd hcon.1 (by omega))]
      rw [hA1def, getD_swapIdx_other vzero (by omega) (by omega)]
  · refine listext_getD false ?_ ?_
    · simp [length_mapWithIdx, hb1len, hb]
    · intro k hk
      have hkcol : k < col := by
        simp only [List.length_take, length_mapWithIdx, hb1len] at hk
        omega
      rw [getD_take false hkcol, getD_take false hkcol,
        getD_mapWithIdx0 _ false (by omega)]
      rw [if_neg (fun hcon => absurd hcon.1 (by omega))]
      rw [hb1def, getD_swapIdx_other false (by omega) (by omega)]
  · refine listext_getD vzero ?_ ?_
    · simp only [List.length_drop, length_mapWithIdx, hA1len, List.length_map,
        List.length_set, hA]
      omega
    · intro k hk
      have hkn : col + 1 + k < n := by
        simp only [List.length_drop, length_mapWithIdx, hA1len] at hk
        omega
      rw [getD_drop, getD_mapWithIdx0 _ vzero (by omega)]
      rw [elimRowOp_eq_vadd hpivvan (hActA1 (col + 1 + k) (by omega) hkn) (by omega)]
      have hlen_inner : (((A.drop col).set j ((A.drop col).getD 0 vzero)).drop 1).length
          = n - col - 1 := by
        simp [hA]
      rw [getD_map _ vzero vzero (by rw [hlen_inner]; omega)]
      have harg : A1.getD (col + 1 + k) vzero =
          (((A.drop col).set j ((A.drop col).getD 0 vzero)).drop 1).getD k vzero := by
        rw [getD_drop]
        by_cases hkj : 1 + k = j
        · rw [hkj, getD_set_self vzero (by simp only [List.length_drop, hA]; omega)]
          rw [getD_drop]
          rw [show col + 0 = col from rfl]
          have hidx : col + 1 + k = col + j := by omega
          rw [hidx, hA1def, getD_swapIdx_snd vzero (by omega)]
        · rw [getD_set_ne vzero (fun h => hkj h.symm), getD_drop]
          have hidx : col + (1 + k) = col + 1 + k := by omega
          rw [hidx, hA1def, getD_swapIdx_other vzero (by omega) (by omega)]
      rw [harg]
  · intro r hr1 hr2 c hc
    rw [getD_mapWithIdx0 _ vzero (by omega)]
    rw [elimRowOp_eq_vadd hpivvan (hActA1 r (by omega) hr2) (by omega)]
    by_cases hccol : c = col
    · rw [hccol]
      cases hvc : (A1.getD r vzero) col with
      | true =>
        rw [if_pos rfl]
        simp [vadd, hvc, hpivcol]
      | false =>
        rw [if_neg (by simp)]
        exact hvc
    · have hc' : c < col ∨ n ≤ c := by omega
      have hv := hActA1 r (by omega) hr2 c hc'
      cases hvc : (A1.getD r vzero) col with
      | true =>
        rw [if_pos rfl]
        simp [vadd, hv, hpivvan c hc']
      | false =>
        rw [if_neg (by simp)]
        exact hv
  · intro t
    have hpoint : dotL piv t n = b1.getD col false →
        ∀ r, r < n →
          ((dotL ((mapWithIdx (elimRowOp n col piv) 0 A1).getD r vzero) t n =
            (mapWithIdx (fun r βr =>
              if col < r ∧ (A1.getD r vzero) col then xor βr (b1.getD col false)
              else βr) 0 b1).getD r false) ↔
          (dotL (A1.getD r vzero) t n = b1.getD r false)) := by
      intro hpivt r hr
      rw [getD_mapWithIdx0 _ vzero (by omega), getD_mapWithIdx0 _ false (by omega)]
      by_cases hcolr : col < r
      · cases hvc : (A1.getD r vzero) col with
        | false =>
          rw [elimRowOp, if_neg (by simp [hvc]), if_neg (by simp [hvc])]
        | true =>
          rw [elimRowOp, if_pos ⟨hcolr, hvc⟩, if_pos ⟨hcolr, rfl⟩]
          have heq : (fun k => if col ≤ k ∧ k < n then
              xor ((A1.getD r vzero) k) (piv k) else (A1.getD r vzero) k) =
              vadd (A1.getD r vzero) piv := by
            funext c
            by_cases hcn : col ≤ c ∧ c < n
            · rw [if_pos hcn]; rfl
            · rw [if_neg hcn]
              have hcout : c < col ∨ n ≤ c := by omega
              simp [vadd, hpivvan c hcout, hActA1 r (by omega) hr c hcout]
          rw [heq, dotL_vadd, hpivt]
          constructor
          · intro h
            have := congrArg (fun z => xor z (b1.getD col false)) h
            simpa using this
          · intro h
            rw [h]

      · rw [elimRowOp, if_neg (fun hcon => absurd hcon.1 hcolr),
          if_neg (fun hcon => absurd hcon.1 hcolr)]
    have hswap := solvedBy_swap t hA hb hcol hpn
    rw [show SolvedBy n A b t ↔ SolvedBy n A1 b1 t from hswap.symm]
    constructor
    · intro h r hr
      have hpivt : dotL piv t n = b1.getD col false := by
        have := h col hcol
        rwa [hUcol, hb2col] at this
      exact (hpoint hpivt r hr).mp (h r hr)
    · intro h r hr
      have hpivt : dotL piv t n = b1.getD col false := by
        have := h col hcol
        rwa [hA1col] at this
      exact (hpoint hpivt r hr).mpr (h r hr)

theorem take_eq_of_take_succ {X Y : List α} {c : Nat}
    (h : X.take (c + 1) = Y.take (c + 1)) : X.take c = Y.take c := by
  have h1 : (X.take (c + 1)).take c = (Y.take (c + 1)).take c := by rw [h]
  simp only [List.take_take] at h1
  rwa [Nat.min_eq_left (by omega)] at h1

theorem getD_eq_of_take_eq {X Y : List α} {m k : Nat} (d : α)
    (h : X.take m = Y.take m) (hk : k < m) : X.getD k d = Y.getD k d := by
  rw [← getD_take d hk, h, getD_take d hk]

theorem act_succ_free {n col : Nat} {A : List Vec} (hA : A.length = n)
    (hAct : Act n col A) (hft : firstTrue col (A.drop col) = none) :
    Act n (col + 1) A := by
  intro r hr1 hr2 c hc
  by_cases hcc : c = col
  · rw [hcc]
    have hmem : A.getD r vzero ∈ A.drop col := by
      have hlt : r - col < (A.drop col).length := by
        simp only [List.length_drop, hA]; omega
      have h2 := getD_mem_of_lt vzero hlt
      rwa [getD_drop, Nat.add_sub_cancel' (by omega)] at h2
    exact firstTrue_eq_none.mp hft _ hmem
  · exact hAct r (by omega) hr2 c (by omega)

/-- The bridge between the concrete Gauss loop and the abstract run. -/
theorem bridge (n : Nat) : ∀ (m col : Nat) (A : List Vec) (b : List Bool),
    col + m ≤ n → A.length = n → b.length = n → Act n col A →
    BridgeInv n col m A b
      ((List.range' col m).foldl (fun s c => gaussStep n c s) (A, b)).1
      ((List.range' col m).foldl (fun s c => gaussStep n c s) (A, b)).2
      (erun (A.drop col) (List.range' col m)) := by
  intro m
  induction m with
  | zero =>
    intro col A b hsum hA hb hAct
    refine ⟨hA, hb, rfl, rfl, ?_, ?_, ?_, ?_, fun t => Iff.rfl⟩
    · intro k hk; omega
    · intro k hk; omega
    · intro k hk; omega
    · intro r hr1 hr2 c hc
      exact hAct r (by omega) hr2 c (by omega)
  | succ m ih =>
    intro col A b hsum hA hb hAct
    have hcoln : col < n := by omega
    cases hft : firstTrue col (A.drop col) with
    | none =>
      have hfold : (List.range' col (m + 1)).foldl (fun s c => gaussStep n c s) (A, b)
          = (List.range' (col + 1) m).foldl (fun s c => gaussStep n c s) (A, b) := by
        rw [List.range'_succ]
        conv_lhs => rw [List.foldl_cons]
        rw [gaussStep_free hA (by omega) hft]
      have hevs : erun (A.drop col) (List.range' col (m + 1)) =
          ⟨col, A.getD col vzero, false⟩ ::
            erun (A.drop (col + 1)) (List.range' (col + 1) m) := by
        rw [List.range'_succ, erun_cons_free hft, List.drop_drop]
        have hh : (A.drop col).getD 0 vzero = A.getD col vzero := by
          rw [getD_drop, show col + 0 = col from rfl]
        rw [hh]
      rw [hfold, hevs]
      have hActS : Act n (col + 1) A := act_succ_free hA hAct hft
      obtain ⟨ihl1, ihl2, iht1, iht2, ihrows, ihpT, ihpF, ihact, ihsolved⟩ :=
        ih (col + 1) A b (by omega) hA hb hActS
      have hAcol : ∀ c, c ≤ col ∨ n ≤ c → A.getD col vzero c = false := by
        intro c hc
        by_cases hcc : c = col
        · rw [hcc]
          have hmem : A.getD col vzero ∈ A.drop col := by
            have hlt : (0 : Nat) < (A.drop col).length := by
              simp only [List.length_drop, hA]; omega
            have h2 := getD_mem_of_lt vzero hlt
            rwa [getD_drop, show col + 0 = col from rfl] at h2
          exact firstTrue_eq_none.mp hft _ hmem
        · exact hAct col (Nat.le_refl _) hcoln c (by omega)
      refine ⟨ihl1, ihl2, take_eq_of_take_succ iht1, take_eq_of_take_succ iht2,
        ?_, ?_, ?_, ?_, ihsolved⟩
      · intro k hk
        cases k with
        | zero =>
          simp only [List.getD_cons_zero, show col + 0 = col from rfl]
          rw [getD_eq_of_take_eq vzero iht1 (by omega)]
        | succ k' =>
          simp only [List.getD_cons_succ]
          rw [show col + (k' + 1) = (col + 1) + k' from by omega]
          exact ihrows k' (by omega)
      · intro k hk hp
        cases k with
        | zero => simp at hp
        | succ k' =>
          simp only [List.getD_cons_succ] at hp
          rw [show col + (k' + 1) = (col + 1) + k' from by omega]
          exact ihpT k' (by omega) hp
      · intro k hk hp
        cases k with
        | zero =>
          intro c hc
          simp only [show col + 0 = col from rfl] at hc ⊢
          rw [getD_eq_of_take_eq vzero iht1 (by omega)]
          exact hAcol c hc
        | succ k' =>
          simp only [List.getD_cons_succ] at hp
          intro c hc
          rw [show col + (k' + 1) = (col + 1) + k' from by omega] at hc ⊢
          exact ihpF k' (by omega) hp c hc
      · rw [show col + (m + 1) = (col + 1) + m from by omega]
        exact ihact
    | some jj =>
      obtain ⟨hlen1, hlen2, htakeA, htakeb, hgetcol, hdropeq, hact1, hsolv1⟩ :=
        gaussStep_pivot hA hb hcoln hAct hft
      have hfold : (List.range' col (m + 1)).foldl (fun s c => gaussStep n c s) (A, b)
          = (List.range' (col + 1) m).foldl (fun s c => gaussStep n c s)
              (gaussStep n col (A, b)) := by
        rw [List.range'_succ, List.foldl_cons]
      have hevs : erun (A.drop col) (List.range' col (m + 1)) =
          ⟨col, A.getD (col + jj) vzero, true⟩ ::
            erun ((((A.drop col).set jj ((A.drop col).getD 0 vzero)).drop 1).map
              (fun v => if v col then vadd v (A.getD (col + jj) vzero) else v))
              (List.range' (col + 1) m) := by
        rw [List.range'_succ, erun_cons_pivot hft]
        rw [show (A.drop col).getD jj vzero = A.getD (col + jj) vzero from getD_drop ..]
      rw [hfold, hevs]
      have hIH := ih (col + 1) (gaussStep n col (A, b)).1 (gaussStep n col (A, b)).2
        (by omega) hlen1 hlen2 hact1
      rw [hdropeq] at hIH
      obtain ⟨ihl1, ihl2, iht1, iht2, ihrows, ihpT, ihpF, ihact, ihsolved⟩ := hIH
      have hUcol : ((List.range' (col + 1) m).foldl (fun s c => gaussStep n c s)
          (gaussStep n col (A, b))).1.getD col vzero = A.getD (col + jj) vzero := by
        rw [getD_eq_of_take_eq vzero iht1 (by omega)]
        exact hgetcol
      have hpivcol : A.getD (col + jj) vzero col = true := by
        have := firstTrue_some_true hft
        rwa [getD_drop] at this
      have hpjn : col + jj < n := by
        obtain ⟨_, h2⟩ := firstTrue_some_findPivot hft
        omega
      refine ⟨ihl1, ihl2, (take_eq_of_take_succ iht1).trans htakeA,
        (take_eq_of_take_succ iht2).trans htakeb,
        ?_, ?_, ?_, ?_, fun t => (ihsolved t).trans (hsolv1 t)⟩
      · intro k hk
        cases k with
        | zero =>
          simp only [List.getD_cons_zero, show col + 0 = col from rfl]
          exact hUcol
        | succ k' =>
          simp only [List.getD_cons_succ]
          rw [show col + (k' + 1) = (col + 1) + k' from by omega]
          exact ihrows k' (by omega)
      · intro k hk hp
        cases k with
        | zero =>
          simp only [show col + 0 = col from rfl]
          refine ⟨?_, ?_⟩
          · rw [hUcol]; exact hpivcol
          · intro c hc
            rw [hUcol]
            exact hAct (col + jj) (by omega) hpjn c hc
        | succ k' =>
          simp only [List.getD_cons_succ] at hp
          rw [show col + (k' + 1) = (col + 1) + k' from by omega]
          exact ihpT k' (by omega) hp
      · intro k hk hp
        cases k with
        | zero => simp at hp
        | succ k' =>
          simp only [List.getD_cons_succ] at hp
          rw [show col + (k' + 1) = (col + 1) + k' from by omega]
          exact ihpF k' (by omega) hp
      · rw [show col + (m + 1) = (col + 1) + m from by omega]
        exact ihact

theorem getElem_eq_getD {l : List α} {n : Nat} (d : α) (h : n < l.length) :
    l.get ⟨n, h⟩ = l.getD n d := by
  simp [List.getD_eq_getElem?_getD, List.getElem?_eq_getElem h]

theorem mem_range'_iff {m s n : Nat} : m ∈ List.range' s n ↔ s ≤ m ∧ m < s + n := by
  rw [List.mem_range']
  constructor
  · rintro ⟨i, hi, rfl⟩; omega
  · intro ⟨h1, h2⟩; exact ⟨m - s, by omega, by omega⟩

/-! ## The reverse substitution -/
/-- One step of the reverse substitution, written with `xorSum`. -/
theorem backRow_eq (A : List Vec) (b : List Bool) (n row : Nat) (xR : List Bool) :
    backRow A b n row xR = xR.set row
      (xor (b.getD row false)
        (xorSum (fun c => (A.getD row vzero) c && xR.getD c false)
          (List.range' (row + 1) (n - (row + 1))))) := by
  rw [backRow]
  congr 1
  rw [foldl_xor_init]
  congr 1
  have hmap : List.range' (row + 1) (n - (row + 1)) =
      (List.range (n - (row + 1))).map (fun i => row + 1 + i) := by
    refine listext_getD 0 ?_ ?_
    · simp
    · intro k hk
      simp only [List.length_range'] at hk
      rw [getD_map _ 0 0 (by simpa using hk)]
      rw [show (List.range' (row + 1) (n - (row + 1))).getD k 0 =
        (List.range' (row + 1) (n - (row + 1))).get ⟨k, by simpa using hk⟩ from
        (getElem_eq_getD 0 _).symm]
      rw [show (List.range (n - (row + 1))).getD k 0 =
        (List.range (n - (row + 1))).get ⟨k, by simpa using hk⟩ from
        (getElem_eq_getD 0 _).symm]
      simp
  rw [hmap, xorSum_map]

/-- The invariant of the reverse-substitution fold: after `i` steps the top
`i` rows hold their final value, given by their defining equation, and the
rest still hold `false`. -/
theorem backSubst_inv (n : Nat) (A : List Vec) (b : List Bool) :
    ∀ i, i ≤ n →
      ((List.range i).foldl (fun xR k => backRow A b n (n - 1 - k) xR)
        (List.replicate n false)).length = n ∧
      (∀ r, r < n - i →
        ((List.range i).foldl (fun xR k => backRow A b n (n - 1 - k) xR)
          (List.replicate n false)).getD r false = false) ∧
      (∀ r, n - i ≤ r → r < n →
        ((List.range i).foldl (fun xR k => backRow A b n (n - 1 - k) xR)
          (List.replicate n false)).getD r false =
        xor (b.getD r false)
          (xorSum (fun c => (A.getD r vzero) c &&
            ((List.range i).foldl (fun xR k => backRow A b n (n - 1 - k) xR)
              (List.replicate n false)).getD c false)
            (List.range' (r + 1) (n - (r + 1))))) := by
  intro i
  induction i with
  | zero =>
    intro _
    refine ⟨by simp, ?_, ?_⟩
    · intro r hr
      simp only [List.range_zero, List.foldl_nil]
      rw [List.getD_eq_getElem?_getD, List.getElem?_replicate]
      split <;> rfl
    · intro r hr1 hr2
      omega
  | succ i ih =>
    intro hi
    obtain ⟨ihlen, ihlow, ihhigh⟩ := ih (by omega)
    have hfold : (List.range (i + 1)).foldl (fun xR k => backRow A b n (n - 1 - k) xR)
        (List.replicate n false) =
        backRow A b n (n - 1 - i)
          ((List.range i).foldl (fun xR k => backRow A b n (n - 1 - k) xR)
            (List.replicate n false)) := by
      rw [List.range_succ, List.foldl_append, List.foldl_cons, List.foldl_nil]
    rw [hfold, backRow_eq]
    set xP := (List.range i).foldl (fun xR k => backRow A b n (n - 1 - k) xR)
      (List.replicate n false) with hxP
    have hrow : n - 1 - i < n := by omega
    have hlen2 : (xP.set (n - 1 - i) (xor (b.getD (n - 1 - i) false)
        (xorSum (fun c => (A.getD (n - 1 - i) vzero) c && xP.getD c false)
          (List.range' ((n - 1 - i) + 1) (n - ((n - 1 - i) + 1)))))).length = n := by
      simp [ihlen]
    refine ⟨hlen2, ?_, ?_⟩
    · intro r hr
      rw [getD_set_ne false (by omega)]
      exact ihlow r (by omega)
    · intro r hr1 hr2
      have hcongr : ∀ c ∈ List.range' (r + 1) (n - (r + 1)),
          ((A.getD r vzero) c && (xP.set (n - 1 - i) (xor (b.getD (n - 1 - i) false)
            (xorSum (fun c => (A.getD (n - 1 - i) vzero) c && xP.getD c false)
              (List.range' ((n - 1 - i) + 1) (n - ((n - 1 - i) + 1)))))).getD c false) =
          ((A.getD r vzero) c && xP.getD c false) := by
        intro c hc
        have hcr : r + 1 ≤ c := (mem_range'_iff.mp hc).1
        rw [getD_set_ne false (by omega)]
      by_cases hreq : r = n - 1 - i
      · have hcongr' := hcongr
        rw [hreq] at hcongr'
        rw [hreq, getD_set_self false (by omega)]
        congr 1
        exact (xorSum_congr hcongr').symm
      · rw [getD_set_ne false (fun h => hreq h.symm)]
        rw [ihhigh r (by omega) hr2]
        congr 1
        exact (xorSum_congr hcongr).symm

/-- The value `backSubst` computes for each row, in terms of the final list
itself (its later entries are already final when row `r` is processed). -/
theorem backSubst_spec (n : Nat) (A : List Vec) (b : List Bool) :
    (backSubst n A b).length = n ∧
    ∀ r, r < n → (backSubst n A b).getD r false =
      xor (b.getD r false)
        (xorSum (fun c => (A.getD r vzero) c && (backSubst n A b).getD c false)
          (List.range' (r + 1) (n - (r + 1)))) := by
  obtain ⟨h1, _, h3⟩ := backSubst_inv n A b n (Nat.le_refl _)
  exact ⟨h1, fun r hr => h3 r (by omega) hr⟩

/-- Splitting the dot product of a row vanishing below `r` at column `r`. -/
theorem dotL_split {n r : Nat} (v : Vec) (xs : List Bool) (hr : r < n)
    (hvan : ∀ c, c < r → v c = false) :
    dotL v xs n = xor (v r && xs.getD r false)
      (xorSum (fun c => v c && xs.getD c false) (List.range' (r + 1) (n - (r + 1)))) := by
  rw [dotL, List.range_eq_range']
  have hsplit : List.range' 0 n = List.range' 0 r ++ List.range' r (n - r) := by
    rw [show List.range' r (n - r) = List.range' (0 + r) (n - r) from by
      rw [Nat.zero_add]]
    rw [List.range'_append_1]
    congr 1
    omega
  rw [hsplit, xorSum_append]
  have hz : xorSum (fun c => v c && xs.getD c false) (List.range' 0 r) = false := by
    refine xorSum_zero ?_
    intro c hc
    have := (mem_range'_iff.mp hc).2
    rw [hvan c (by omega)]
    rfl
  rw [hz]
  have hnr : n - r = (n - (r + 1)) + 1 := by omega
  rw [hnr, List.range'_succ, xorSum_cons]
  simp

/-- A settled pivot row is satisfied by the vector `backSubst` computes. -/
theorem pivot_row_dot {n r : Nat} {u : Vec} {xs : List Bool} {bv : Bool}
    (hr : r < n) (hdiag : u r = true) (hvan : ∀ c, c < r → u c = false)
    (hx : xs.getD r false = xor bv (xorSum (fun c => u c && xs.getD c false)
      (List.range' (r + 1) (n - (r + 1))))) :
    dotL u xs n = bv := by
  rw [dotL_split u xs hr hvan, hdiag, hx]
  cases bv <;> cases xorSum (fun c => u c && xs.getD c false)
    (List.range' (r + 1) (n - (r + 1))) <;> rfl

theorem forall₂_range' {rel : Nat → Vec → Prop} :
    ∀ (A : List Vec) (s : Nat), (∀ k, k < A.length → rel (s + k) (A.getD k vzero)) →
      List.Forall₂ rel (List.range' s A.length) A := by
  intro A
  induction A with
  | nil => intro s _; simp
  | cons v t ih =>
    intro s h
    rw [List.length_cons, List.range'_succ]
    refine List.Forall₂.cons ?_ (ih (s + 1) ?_)
    · have := h 0 (by simp)
      simpa using this
    · intro k hk
      have := h (k + 1) (by simpa using Nat.succ_lt_succ hk)
      rw [show s + (k + 1) = (s + 1) + k from by omega] at this
      simpa using this

theorem forall₂_range {rel : Nat → Vec → Prop} {A : List Vec} {n : Nat}
    (hA : A.length = n) (h : ∀ k, k < n → rel k (A.getD k vzero)) :
    List.Forall₂ rel (List.range n) A := by
  rw [List.range_eq_range', ← hA]
  exact forall₂_range' A 0 (fun k hk => by
    have := h k (by omega)
    simpa using this)

/-- Index of a pivot row inside the event list. -/
theorem pivRow_index {u : Vec} {evs : List Ev} (hu : u ∈ pivRows evs) :
    ∃ k, k < evs.length ∧ (evs.getD k ⟨0, vzero, false⟩).piv = true ∧
      (evs.getD k ⟨0, vzero, false⟩).row = u := by
  obtain ⟨e, he, hp, hrow⟩ := mem_pivRows hu
  obtain ⟨k, hk, hek⟩ := List.getElem_of_mem he
  refine ⟨k, hk, ?_, ?_⟩
  · rw [show evs.getD k ⟨0, vzero, false⟩ = e from by
      rw [← hek]; exact (getElem_eq_getD ⟨0, vzero, false⟩ hk).symm]
    exact hp
  · rw [show evs.getD k ⟨0, vzero, false⟩ = e from by
      rw [← hek]; exact (getElem_eq_getD ⟨0, vzero, false⟩ hk).symm]
    exact hrow

/-- The heart of the solver's correctness: on a symmetric system that is
solved by some vector `t`, the vector produced by forward elimination plus
reverse substitution solves the original system. -/
theorem solver_correct {n : Nat} {A : List Vec} {b : List Bool} (t : List Bool)
    (hA : A.length = n) (hb : b.length = n) (hAct : Act n 0 A)
    (hsym : ∀ a, a < n → ∀ c, c < n → A.getD a vzero c = A.getD c vzero a)
    (hcons : SolvedBy n A b t) :
    SolvedBy n A b (backSubst n (gaussElim n A b).1 (gaussElim n A b).2) := by
  have hbr := bridge n n 0 A b (by omega) hA hb hAct
  rw [List.drop_zero, ← List.range_eq_range'] at hbr
  have hfold : (List.range n).foldl (fun s c => gaussStep n c s) (A, b) =
      gaussElim n A b := by
    rw [gaussElim]
  rw [hfold] at hbr
  obtain ⟨lenU, lenb, _, _, rows, pT, pF, _, solved⟩ := hbr
  simp only [Nat.zero_add] at rows pT pF
  have hlenevs : (erun A (List.range n)).length = n := by
    rw [erun_length]; simp
  obtain ⟨lenxR, hxR⟩ := backSubst_spec n (gaussElim n A b).1 (gaussElim n A b).2
  have hUt : SolvedBy n (gaussElim n A b).1 (gaussElim n A b).2 t :=
    (solved t).mpr hcons
  -- every pivot row is satisfied by the computed vector
  have hpivsat : ∀ k, k < n → ((erun A (List.range n)).getD k ⟨0, vzero, false⟩).piv = true →
      dotL ((gaussElim n A b).1.getD k vzero)
        (backSubst n (gaussElim n A b).1 (gaussElim n A b).2) n =
      (gaussElim n A b).2.getD k false := by
    intro k hk hp
    obtain ⟨hdiag, hvan⟩ := pT k hk hp
    refine pivot_row_dot hk hdiag (fun c hc => hvan c (Or.inl hc)) ?_
    exact hxR k hk
  -- the free rows lie in the span of the pivot rows (symmetry)
  have hspan := symm_free_in_span n (List.range n)
    (fun a c => A.getD a vzero c) A (by simp)
    (forall₂_range hA (fun k hk d hd => rfl))
    (fun a ha c hc => hsym a (by simpa using ha) c (by simpa using hc))
  -- now prove the computed vector solves the eliminated system
  have hUxR : SolvedBy n (gaussElim n A b).1 (gaussElim n A b).2
      (backSubst n (gaussElim n A b).1 (gaussElim n A b).2) := by
    intro r hr
    cases hp : ((erun A (List.range n)).getD r ⟨0, vzero, false⟩).piv with
    | true => exact hpivsat r hr hp
    | false =>
      -- span certificate for the free row
      have hev_mem : (erun A (List.range n)).getD r ⟨0, vzero, false⟩ ∈
          erun A (List.range n) := getD_mem_of_lt _ (by omega)
      obtain ⟨sel, hsel⟩ := hspan _ hev_mem hp
      have hrowr : (gaussElim n A b).1.getD r vzero =
          ((erun A (List.range n)).getD r ⟨0, vzero, false⟩).row := rows r hr
      set P := pivRows (erun A (List.range n)) with hP
      -- both dot products agree with the combination's dot products
      have hdot2 : ∀ xs : List Bool,
          dotL ((gaussElim n A b).1.getD r vzero) xs n = dotL (combL sel P) xs n := by
        intro xs
        rw [dotL, dotL]
        refine xorSum_congr ?_
        intro c hc
        rw [hrowr, hsel c hc]
      -- each pivot row has equal dot products against both vectors
      have hPdots : P.map (fun v => dotL v
          (backSubst n (gaussElim n A b).1 (gaussElim n A b).2) n) =
          P.map (fun v => dotL v t n) := by
        refine List.map_congr_left ?_
        intro u hu
        obtain ⟨k, hk, hkp, hkrow⟩ := pivRow_index (hP ▸ hu)
        have hku : (gaussElim n A b).1.getD k vzero = u := by
          rw [rows k (by omega)]
          exact hkrow
        rw [← hku]
        rw [hpivsat k (by omega) hkp]
        rw [hUt k (by omega)]
    -- assemble
      rw [hdot2, dotL_combL, hPdots, ← dotL_combL, ← hdot2]
      exact hUt r hr
  exact (solved _).mp hUxR

theorem toggle_apply (ySize xSize : Nat) (g : Grid) (ty tx r c : Nat) :
    toggle ySize xSize g ty tx r c = xor (g r c) (toggleEff ySize xSize ty tx r c) := by
  rw [toggle, toggleEff]
  simp only []
  by_cases hA : r = ty ∧ c = tx <;> by_cases hB : r = ty ∧ c < xSize <;>
    by_cases hC : r < ySize ∧ c = tx <;>
    ((first | rw [if_pos hC] | rw [if_neg hC]) <;>
     (first | rw [if_pos hB] | rw [if_neg hB]) <;>
     (first | rw [if_pos hA] | rw [if_neg hA]) <;>
     (first | rw [decide_eq_true hA] | rw [decide_eq_false hA]) <;>
     (first | rw [decide_eq_true hB] | rw [decide_eq_false hB]) <;>
     (first | rw [decide_eq_true hC] | rw [decide_eq_false hC]) <;>
     (cases g r c <;> rfl))

/-- Toggling the same position twice restores every cell. -/
theorem toggle_toggle (ySize xSize : Nat) (g : Grid) (ty tx : Nat) :
    toggle ySize xSize (toggle ySize xSize g ty tx) ty tx = g := by
  funext r c
  rw [toggle_apply, toggle_apply, Bool.xor_assoc, Bool.xor_self, Bool.xor_false]

/-! ## The rows of the coefficient matrix -/
theorem setV_fold_row (m base : Nat) (v0 : Vec) (j : Nat) :
    ((List.range m).foldl (fun v i => setV v (base + i) true) v0) j =
      (v0 j || decide (base ≤ j ∧ j < base + m)) := by
  induction m with
  | zero => simp
  | succ m ih =>
    rw [List.range_succ, List.foldl_append, List.foldl_cons, List.foldl_nil]
    rw [setV]
    by_cases hj : j = base + m
    · rw [if_pos hj]
      have : base ≤ j ∧ j < base + (m + 1) := by omega
      simp [this]
    · rw [if_neg hj, ih]
      by_cases h1 : base ≤ j ∧ j < base + m
      · have h2 : base ≤ j ∧ j < base + (m + 1) := by omega
        simp [h1, h2]
      · have h2 : ¬(base ≤ j ∧ j < base + (m + 1)) := by omega
        simp [h1, h2]

theorem idx_decomp {x : Nat} (q r j : Nat) (hr : r < x) :
    j = q * x + r ↔ (j % x = r ∧ j / x = q) := by
  constructor
  · rintro rfl
    constructor
    · rw [Nat.add_comm, Nat.add_mul_mod_self_right, Nat.mod_eq_of_lt hr]
    · rw [Nat.add_comm, Nat.mul_comm, Nat.add_mul_div_left _ _ (by omega)]
      rw [Nat.div_eq_of_lt hr]
      omega
  · rintro ⟨h1, h2⟩
    have := Nat.div_add_mod j x
    rw [h1, h2] at this
    rw [Nat.mul_comm q x]
    omega

theorem setV_fold_col (x col : Nat) (hcol : col < x) (v0 : Vec) (j : Nat) :
    ∀ m, ((List.range m).foldl (fun v i => setV v (i * x + col) true) v0) j =
      (v0 j || decide (j % x = col ∧ j / x < m)) := by
  intro m
  induction m with
  | zero => simp
  | succ m ih =>
    rw [List.range_succ, List.foldl_append, List.foldl_cons, List.foldl_nil]
    rw [setV]
    by_cases hj : j = m * x + col
    · rw [if_pos hj]
      obtain ⟨hm, hd⟩ := (idx_decomp m col j hcol).mp hj
      have : j % x = col ∧ j / x < m + 1 := ⟨hm, by omega⟩
      simp [this]
    · rw [if_neg hj, ih]
      by_cases h1 : j % x = col ∧ j / x < m
      · have h2 : j % x = col ∧ j / x < m + 1 := ⟨h1.1, by omega⟩
        simp [h1, h2]
      · have h2 : ¬(j % x = col ∧ j / x < m + 1) := by
          intro ⟨ha, hb⟩
          have hd : j / x = m := by
            by_cases hjm : j / x < m
            · exact absurd ⟨ha, hjm⟩ h1
            · omega
          exact hj ((idx_decomp m col j hcol).mpr ⟨ha, hd⟩)
        simp [h1, h2]

/-- Pointwise description of a row of `A`, straight from the three loops. -/
theorem buildRow_apply (y x idx j : Nat) (hx : 0 < x) :
    buildRow y x idx j =
      (decide (j = idx) || decide (idx / x * x ≤ j ∧ j < idx / x * x + x) ||
        decide (j % x = idx % x ∧ j / x < y)) := by
  rw [buildRow]
  rw [setV_fold_col x (idx % x) (Nat.mod_lt _ hx) _ j y]
  rw [setV_fold_row x (idx / x * x) _ j]
  rw [show (setV vzero idx true) j = decide (j = idx) from by
    rw [setV]; by_cases hj : j = idx <;> simp [hj, vzero]]

theorem div_eq_iff_between {x : Nat} (hx : 0 < x) (q j : Nat) :
    (q * x ≤ j ∧ j < q * x + x) ↔ j / x = q := by
  constructor
  · intro ⟨h1, h2⟩
    have hle : q ≤ j / x := (Nat.le_div_iff_mul_le hx).mpr h1
    have hlt : j / x < q + 1 := by
      rw [Nat.div_lt_iff_lt_mul hx]
      calc j < q * x + x := h2
        _ = (q + 1) * x := by rw [Nat.succ_mul]
    omega
  · rintro rfl
    constructor
    · exact Nat.div_mul_le_self j x
    · have hdm := Nat.div_add_mod j x
      have hm := Nat.mod_lt j hx
      rw [Nat.mul_comm (j / x) x]
      omega

/-- In-range form: entry `(idx, j)` of the footprint is set exactly when the
two cells coincide or share a row or a column. -/
theorem buildRow_apply' (y x idx j : Nat) (hx : 0 < x) (hj : j < y * x) :
    buildRow y x idx j =
      (decide (j = idx) || decide (j / x = idx / x) || decide (j % x = idx % x)) := by
  rw [buildRow_apply y x idx j hx]
  have h2 : decide (idx / x * x ≤ j ∧ j < idx / x * x + x) = decide (j / x = idx / x) :=
    decide_eq_decide.mpr (div_eq_iff_between hx (idx / x) j)
  have h3 : decide (j % x = idx % x ∧ j / x < y) = decide (j % x = idx % x) := by
    refine decide_eq_decide.mpr ?_
    have : j / x < y := by
      rw [Nat.div_lt_iff_lt_mul hx]
      omega
    constructor
    · exact fun h => h.1
    · exact fun h => ⟨h, this⟩
  rw [h2, h3]

theorem buildRow_out (y x idx j : Nat) (hx : 0 < x) (hidx : idx < y * x)
    (hj : y * x ≤ j) : buildRow y x idx j = false := by
  rw [buildRow_apply y x idx j hx]
  have hd : idx / x < y := by rw [Nat.div_lt_iff_lt_mul hx]; omega
  have h1 : ¬(j = idx) := by omega
  have h2 : ¬(idx / x * x ≤ j ∧ j < idx / x * x + x) := by
    intro ⟨_, hb⟩
    have : idx / x * x + x ≤ y * x := by
      calc idx / x * x + x = (idx / x + 1) * x := by rw [Nat.succ_mul]
        _ ≤ y * x := Nat.mul_le_mul_right x (by omega)
    omega
  have h3 : ¬(j % x = idx % x ∧ j / x < y) := by
    intro ⟨_, hb⟩
    rw [Nat.div_lt_iff_lt_mul hx] at hb
    omega
  simp [h1, h2, h3]

theorem buildA_length (y x : Nat) : (buildA y x).length = y * x := by
  simp [buildA]

theorem buildA_getD {y x i : Nat} (h : i < y * x) :
    (buildA y x).getD i vzero = buildRow y x i := by
  rw [buildA, getD_map (buildRow y x) 0 vzero (by simpa using h)]
  rw [show (List.range (y * x)).getD i 0 = i from by
    rw [← getElem_eq_getD 0 (by simpa using h)]
    simp]

theorem buildB_length (y x : Nat) (g : Grid) : (buildB y x g).length = y * x := by
  simp [buildB]

theorem buildB_getD {y x i : Nat} (g : Grid) (h : i < y * x) :
    (buildB y x g).getD i false = g (i / x) (i % x) := by
  rw [buildB, getD_map _ 0 false (by simpa using h)]
  rw [show (List.range (y * x)).getD i 0 = i from by
    rw [← getElem_eq_getD 0 (by simpa using h)]
    simp]

theorem buildA_act (y x : Nat) (hx : 0 < x) : Act (y * x) 0 (buildA y x) := by
  intro r _ hr c hc
  rcases hc with hc | hc
  · omega
  · rw [buildA_getD hr]
    exact buildRow_out y x r c hx hr hc

theorem buildA_symm (y x : Nat) (hx : 0 < x) :
    ∀ a, a < y * x → ∀ c, c < y * x →
      (buildA y x).getD a vzero c = (buildA y x).getD c vzero a := by
  intro a ha c hc
  rw [buildA_getD ha, buildA_getD hc]
  rw [buildRow_apply' y x a c hx hc, buildRow_apply' y x c a hx ha]
  rw [show decide (c = a) = decide (a = c) from decide_eq_decide.mpr eq_comm]
  rw [show decide (c / x = a / x) = decide (a / x = c / x) from
    decide_eq_decide.mpr eq_comm]
  rw [show decide (c % x = a % x) = decide (a % x = c % x) from
    decide_eq_decide.mpr eq_comm]

theorem cell_idx_lt {y x r c : Nat} (hr : r < y) (hc : c < x) : r * x + c < y * x := by
  have h1 : r * x + c < (r + 1) * x := by rw [Nat.succ_mul]; omega
  exact Nat.lt_of_lt_of_le h1 (Nat.mul_le_mul_right x (by omega))

/-- The flip a toggle at `(ty, tx)` applies to cell `(r, c)` is the matrix
entry pairing the two cell indices. -/
theorem toggleEff_eq_buildRow {y x ty tx r c : Nat} (hty : ty < y) (htx : tx < x)
    (hr : r < y) (hc : c < x) :
    toggleEff y x ty tx r c = buildRow y x (r * x + c) (ty * x + tx) := by
  have hx : 0 < x := by omega
  have hjdx : ty * x + tx < y * x := cell_idx_lt hty htx
  rw [buildRow_apply' y x (r * x + c) (ty * x + tx) hx hjdx]
  obtain ⟨hmod, hdiv⟩ := (idx_decomp r c (r * x + c) hc).mp rfl
  obtain ⟨hmod2, hdiv2⟩ := (idx_decomp ty tx (ty * x + tx) htx).mp rfl
  rw [toggleEff]
  have he1 : decide (ty * x + tx = r * x + c) = decide (r = ty ∧ c = tx) := by
    refine decide_eq_decide.mpr ?_
    rw [idx_decomp r c (ty * x + tx) hc]
    rw [hmod2, hdiv2]
    constructor
    · rintro ⟨h1, h2⟩; exact ⟨h2.symm, h1.symm⟩
    · rintro ⟨h1, h2⟩; exact ⟨h2.symm, h1.symm⟩
  have he2 : decide ((ty * x + tx) / x = (r * x + c) / x) = decide (r = ty ∧ c < x) := by
    refine decide_eq_decide.mpr ?_
    rw [hdiv, hdiv2]
    constructor
    · intro h; exact ⟨h.symm, hc⟩
    · intro h; exact h.1.symm
  have he3 : decide ((ty * x + tx) % x = (r * x + c) % x) = decide (r < y ∧ c = tx) := by
    refine decide_eq_decide.mpr ?_
    rw [hmod, hmod2]
    constructor
    · intro h; exact ⟨hr, h.symm⟩
    · intro h; exact h.2.symm
  rw [he1, he2, he3]
  by_cases h1 : r = ty ∧ c = tx <;> by_cases h2 : r = ty ∧ c < x <;>
    by_cases h3 : r < y ∧ c = tx <;> simp_all

theorem toggleList_append (ySize xSize : Nat) (g : Grid) (ts₁ ts₂ : List (Nat × Nat)) :
    toggleList ySize xSize g (ts₁ ++ ts₂) =
      toggleList ySize xSize (toggleList ySize xSize g ts₁) ts₂ := by
  simp [toggleList, List.foldl_append]

theorem dotL_replicate_false (v : Vec) (n m : Nat) :
    dotL v (List.replicate m false) n = false := by
  refine xorSum_zero ?_
  intro c _
  rw [List.getD_eq_getElem?_getD, List.getElem?_replicate]
  split <;> simp

theorem xorSum_single (z : Bool) {jdx : Nat} :
    ∀ {n : Nat}, jdx < n →
      xorSum (fun c => (decide (c = jdx)) && z) (List.range n) = z := by
  intro n
  induction n with
  | zero => omega
  | succ n ih =>
    intro hj
    rw [List.range_succ, xorSum_append]
    by_cases hjn : jdx = n
    · subst hjn
      have h0 : xorSum (fun c => (decide (c = jdx)) && z) (List.range jdx) = false := by
        refine xorSum_zero ?_
        intro c hc
        have : c < jdx := by simpa using hc
        simp [show c ≠ jdx from by omega]
      rw [h0]
      simp [xorSum_cons, xorSum_nil]
    · rw [ih (by omega)]
      have h1 : xorSum (fun c => (decide (c = jdx)) && z) [n] = false := by
        refine xorSum_zero ?_
        intro c hc
        simp only [List.mem_singleton] at hc
        simp [hc, show n ≠ jdx from fun h => hjn h.symm]
      rw [h1]
      simp

/-- Flipping entry `jdx` of the candidate vector flips the dot product by the
row's entry at `jdx`. -/
theorem dotL_set_flip (v : Vec) (t : List Bool) {n jdx : Nat} (hj : jdx < n)
    (hjt : jdx < t.length) :
    dotL v (t.set jdx (! t.getD jdx false)) n = xor (dotL v t n) (v jdx) := by
  rw [dotL, dotL]
  have hpt : ∀ c ∈ List.range n,
      (v c && (t.set jdx (! t.getD jdx false)).getD c false) =
      xor (v c && t.getD c false) ((decide (c = jdx)) && v jdx) := by
    intro c _
    by_cases hc : c = jdx
    · subst hc
      rw [getD_set_self false hjt]
      simp only [decide_eq_true_eq, if_pos rfl]
      cases v c <;> cases t.getD c false <;> simp
    · rw [getD_set_ne false (fun h => hc h.symm)]
      simp [hc]
  rw [xorSum_congr hpt, xorSum_xor, xorSum_single (v jdx) hj]

/-- Every grid reachable by in-range toggles from the all-false grid is a
consistent right-hand side of the footprint system. -/
theorem reachable_consistent (y x : Nat) (hx : 0 < x) :
    ∀ ts : List (Nat × Nat), (∀ p ∈ ts, p.1 < y ∧ p.2 < x) →
      ∃ t : List Bool, t.length = y * x ∧
        SolvedBy (y * x) (buildA y x) (buildB y x (toggleList y x allFalse ts)) t := by
  intro ts
  induction ts using List.reverseRecOn with
  | nil =>
    intro _
    refine ⟨List.replicate (y * x) false, by simp, ?_⟩
    intro r hr
    rw [dotL_replicate_false, buildB_getD _ hr]
    rfl
  | append_singleton ts p ih =>
    intro hts
    obtain ⟨t, hlen, hsol⟩ := ih (fun q hq => hts q (List.mem_append_left _ hq))
    obtain ⟨hp1, hp2⟩ := hts p (List.mem_append_right _ (List.mem_singleton_self _))
    have hjdx : p.1 * x + p.2 < y * x := cell_idx_lt hp1 hp2
    refine ⟨t.set (p.1 * x + p.2) (! t.getD (p.1 * x + p.2) false), by simp [hlen], ?_⟩
    intro r hr
    rw [dotL_set_flip _ _ hjdx (by omega), hsol r hr]
    rw [toggleList_append]
    rw [show toggleList y x (toggleList y x allFalse ts) [p] =
      toggle y x (toggleList y x allFalse ts) p.1 p.2 from rfl]
    rw [buildB_getD _ hr, buildB_getD _ hr, toggle_apply]
    have hrdiv : r / x < y := by rw [Nat.div_lt_iff_lt_mul hx]; omega
    have hrmod : r % x < x := Nat.mod_lt _ hx
    rw [show toggleEff y x p.1 p.2 (r / x) (r % x) =
        buildRow y x (r / x * x + r % x) (p.1 * x + p.2) from
      toggleEff_eq_buildRow hp1 hp2 hrdiv hrmod]
    rw [show r / x * x + r % x = r from by
      have := Nat.div_add_mod r x
      rw [Nat.mul_comm (r / x) x]
      omega]
    rw [buildA_getD hr]

/-! ## The replay of the computed toggle set -/
theorem applyFold (y x : Nat) (xR : List Bool) (r c : Nat)
    (hr : r < y) (hc : c < x) :
    ∀ (l : List Nat), (∀ i ∈ l, i < y * x) → ∀ g : Grid,
      (l.foldl (fun h i => if xR.getD i false then toggle y x h (i / x) (i % x) else h) g) r c
      = xor (g r c) (xorSum (fun i => buildRow y x (r * x + c) i && xR.getD i false) l) := by
  intro l
  induction l with
  | nil =>
    intro _ g
    simp [xorSum_nil]
  | cons i l' ih =>
    intro hmem g
    have hx : 0 < x := by omega
    have hi : i < y * x := hmem i (List.mem_cons_self _ _)
    have hidiv : i / x < y := by rw [Nat.div_lt_iff_lt_mul hx]; omega
    have himod : i % x < x := Nat.mod_lt _ hx
    rw [List.foldl_cons, xorSum_cons]
    cases hxi : xR.getD i false with
    | false =>
      rw [if_neg (by simp [hxi])]
      rw [ih (fun j hj => hmem j (List.mem_cons_of_mem _ hj)) g]
      simp
    | true =>
      rw [if_pos rfl]
      rw [ih (fun j hj => hmem j (List.mem_cons_of_mem _ hj))]
      rw [toggle_apply]
      rw [show toggleEff y x (i / x) (i % x) r c =
          buildRow y x (r * x + c) (i / x * x + i % x) from
        toggleEff_eq_buildRow hidiv himod hr hc]
      rw [show i / x * x + i % x = i from by
        have := Nat.div_add_mod i x
        rw [Nat.mul_comm (i / x) x]
        omega]
      rw [Bool.xor_assoc]
      congr 1
      cases buildRow y x (r * x + c) i <;> rfl

theorem applySolution_cell (y x : Nat) (g : Grid) (xR : List Bool) (r c : Nat)
    (hr : r < y) (hc : c < x) :
    applySolution y x g xR r c =
      xor (g r c) (dotL (buildRow y x (r * x + c)) xR (y * x)) := by
  rw [applySolution, applyFold y x xR r c hr hc (List.range (y * x))
    (fun i hi => by simpa using hi) g]
  rw [dotL]

theorem isLocked_false (y x : Nat) (g : Grid)
    (h : ∀ r, r < y → ∀ c, c < x → g r c = false) : isLocked y x g = false := by
  rw [isLocked]
  rw [Bool.eq_false_iff]
  intro hcon
  rw [List.any_eq_true] at hcon
  obtain ⟨cx, hcx, hinner⟩ := hcon
  rw [List.any_eq_true] at hinner
  obtain ⟨cy, hcy, hcell⟩ := hinner
  rw [h cy (by simpa using hcy) cx (by simpa using hcx)] at hcell
  cases hcell

/-! ## The solver unlocks every reachable grid -/
/-- The round trip: on a reachable grid the replayed solution clears every
cell, and `openBox`'s final `isLocked` check reports the box open. -/
theorem openBoxOn_reachable (y x : Nat) (hy : 0 < y) (hx : 0 < x)
    (ts : List (Nat × Nat)) (hts : ∀ p ∈ ts, p.1 < y ∧ p.2 < x) :
    (∀ r, r < y → ∀ c, c < x →
      applySolution y x (toggleList y x allFalse ts)
        (backSubst (y * x)
          (gaussElim (y * x) (buildA y x)
            (buildB y x (toggleList y x allFalse ts))).1
          (gaussElim (y * x) (buildA y x)
            (buildB y x (toggleList y x allFalse ts))).2) r c = false) ∧
    openBoxOn y x (toggleList y x allFalse ts) = false := by
  obtain ⟨t, htlen, hcons⟩ := reachable_consistent y x hx ts hts
  have hsolved := solver_correct t (buildA_length y x)
    (buildB_length y x _) (buildA_act y x hx) (buildA_symm y x hx) hcons
  have hcells : ∀ r, r < y → ∀ c, c < x →
      applySolution y x (toggleList y x allFalse ts)
        (backSubst (y * x)
          (gaussElim (y * x) (buildA y x)
            (buildB y x (toggleList y x allFalse ts))).1
          (gaussElim (y * x) (buildA y x)
            (buildB y x (toggleList y x allFalse ts))).2) r c = false := by
    intro r hr c hc
    have hidx : r * x + c < y * x := cell_idx_lt hr hc
    rw [applySolution_cell y x _ _ r c hr hc]
    rw [← buildA_getD hidx]
    rw [hsolved _ hidx]
    rw [buildB_getD _ hidx]
    obtain ⟨hmod, hdiv⟩ := (idx_decomp r c (r * x + c) hc).mp rfl
    rw [hmod, hdiv, Bool.xor_self]
  refine ⟨hcells, ?_⟩
  rw [openBoxOn]
  exact isLocked_false y x _ hcells

/-! ## The constructor's shuffle only produces reachable grids -/
theorem shuffleSteps_reachable (y x : Nat) (hy : 0 < y) (hx : 0 < x) :
    ∀ (t : Nat) (g : Grid) (rs : List Nat) (g' : Grid),
      shuffleSteps y x t g rs = some g' →
      ∃ ts : List (Nat × Nat), (∀ p ∈ ts, p.1 < y ∧ p.2 < x) ∧
        g' = toggleList y x g ts := by
  intro t
  induction t with
  | zero =>
    intro g rs g' h
    rw [shuffleSteps] at h
    refine ⟨[], by simp, ?_⟩
    cases h
    rfl
  | succ t ih =>
    intro g rs g' h
    match rs with
    | [] => rw [shuffleSteps] at h; cases h
    | [r1] => rw [shuffleSteps] at h; cases h
    | r1 :: r2 :: rest =>
      rw [shuffleSteps] at h
      rw [show cppMod r1 y = some (r1 % y) from by rw [cppMod, if_neg (by omega)]] at h
      rw [show cppMod r2 x = some (r2 % x) from by rw [cppMod, if_neg (by omega)]] at h
      simp only [] at h
      obtain ⟨ts, hts, hg'⟩ := ih (toggle y x g (r1 % y) (r2 % x)) rest g' h
      refine ⟨(r1 % y, r2 % x) :: ts, ?_, ?_⟩
      · intro p hp
        rcases List.mem_cons.mp hp with rfl | hp
        · exact ⟨Nat.mod_lt _ hy, Nat.mod_lt _ hx⟩
        · exact hts p hp
      · rw [hg']
        rfl

theorem shuffle_reachable (y x : Nat) (hy : 0 < y) (hx : 0 < x)
    (rng : List Nat) (g' : Grid) (h : shuffle y x allFalse rng = some g') :
    ∃ ts : List (Nat × Nat), (∀ p ∈ ts, p.1 < y ∧ p.2 < x) ∧
      g' = toggleList y x allFalse ts := by
  match rng with
  | [] => rw [shuffle] at h; cases h
  | r0 :: rest =>
    rw [shuffle] at h
    exact shuffleSteps_reachable y x hy hx (r0 % 1000) allFalse rest g' h

/-! ## Degenerate dimensions in the solver core -/
theorem openBoxOn_degenerate (y x : Nat) (g : Grid) (h : y = 0 ∨ x = 0) :
    openBoxOn y x g = false := by
  have hn : y * x = 0 := by
    rcases h with rfl | rfl
    · simp
    · simp
  rw [openBoxOn]
  simp only [hn]
  rw [show applySolution y x g (backSubst 0 (gaussElim 0 (buildA y x)
      (buildB y x g)).1 (gaussElim 0 (buildA y x) (buildB y x g)).2) =
      (List.range (y * x)).foldl (fun h i => if (backSubst 0 (gaussElim 0 (buildA y x)
        (buildB y x g)).1 (gaussElim 0 (buildA y x) (buildB y x g)).2).getD i false
        then toggle y x h (i / x) (i % x) else h) g from rfl]
  rw [hn]
  simp only [List.range_zero, List.foldl_nil]
  rw [isLocked]
  rcases h with rfl | rfl
  · simp
  · simp

theorem bxor_length {b₁ b₂ : List Bool} {n : Nat} (h₁ : b₁.length = n)
    (h₂ : b₂.length = n) : (bxor b₁ b₂).length = n := by
  simp [bxor, h₁, h₂]

theorem getD_bxor {b₁ b₂ : List Bool} (hlen : b₁.length = b₂.length) (k : Nat) :
    (bxor b₁ b₂).getD k false = xor (b₁.getD k false) (b₂.getD k false) := by
  induction b₁ generalizing b₂ k with
  | nil =>
    cases b₂ with
    | nil => simp [bxor]
    | cons y t => simp at hlen
  | cons a t ih =>
    cases b₂ with
    | nil => simp at hlen
    | cons y t₂ =>
      cases k with
      | zero => rfl
      | succ k' =>
        simp only [bxor, List.zipWith_cons_cons, List.getD_cons_succ]
        exact ih (by simpa using hlen) k'

theorem bxor_replicate_false (n : Nat) :
    bxor (List.replicate n false) (List.replicate n false) = List.replicate n false := by
  refine listext_getD false (by simp [bxor]) ?_
  intro k hk
  rw [getD_bxor (by simp) k]
  rw [List.getD_eq_getElem?_getD, List.getElem?_replicate]
  split <;> rfl

theorem set_bxor {b₁ b₂ : List Bool} (hlen : b₁.length = b₂.length) (i : Nat)
    (v₁ v₂ : Bool) :
    (bxor b₁ b₂).set i (xor v₁ v₂) = bxor (b₁.set i v₁) (b₂.set i v₂) := by
  refine listext_getD false (by simp [bxor]) ?_
  intro k hk
  have hsets : (b₁.set i v₁).length = (b₂.set i v₂).length := by simp [hlen]
  by_cases hki : k = i
  · subst hki
    have hkb : k < b₁.length := by
      simp only [List.length_set, bxor, List.length_zipWith] at hk ⊢
      omega
    rw [getD_set_self false (by simp [bxor]; omega)]
    rw [getD_bxor hsets k]
    rw [getD_set_self false hkb, getD_set_self false (by omega)]
  · rw [getD_set_ne false (fun h => hki h.symm)]
    rw [getD_bxor hlen k, getD_bxor hsets k]
    rw [getD_set_ne false (fun h => hki h.symm), getD_set_ne false (fun h => hki h.symm)]

theorem swapIdx_bxor {b₁ b₂ : List Bool} (hlen : b₁.length = b₂.length) (i j : Nat) :
    swapIdx (bxor b₁ b₂) false i j = bxor (swapIdx b₁ false i j) (swapIdx b₂ false i j) := by
  rw [swapIdx, swapIdx, swapIdx]
  rw [getD_bxor hlen j, getD_bxor hlen i]
  rw [set_bxor hlen i, set_bxor (by simp [hlen]) j]

/-- The matrix part of one Gauss iteration does not depend on the right-hand
side. -/
theorem gaussStep_fst_const (n col : Nat) (A : List Vec) (b₁ b₂ : List Bool) :
    (gaussStep n col (A, b₁)).1 = (gaussStep n col (A, b₂)).1 := by
  by_cases h : findPivot A col col = n <;> simp [gaussStep, h]

theorem gaussStep_fst_length {n col : Nat} {A : List Vec} {b : List Bool}
    (hA : A.length = n) : (gaussStep n col (A, b)).1.length = n := by
  by_cases h : findPivot A col col = n <;>
    simp [gaussStep, h, length_mapWithIdx, length_swapIdx, hA]

theorem gaussStep_snd_length {n col : Nat} {A : List Vec} {b : List Bool}
    (hb : b.length = n) : (gaussStep n col (A, b)).2.length = n := by
  by_cases h : findPivot A col col = n <;>
    simp [gaussStep, h, length_mapWithIdx, length_swapIdx, hb]

/-- The right-hand-side part of one Gauss iteration is linear. -/
theorem gaussStep_snd_linear {n col : Nat} {A : List Vec} {b₁ b₂ : List Bool}
    (hcol : col < n) (hA : A.length = n) (h₁ : b₁.length = n) (h₂ : b₂.length = n) :
    (gaussStep n col (A, bxor b₁ b₂)).2 =
      bxor (gaussStep n col (A, b₁)).2 (gaussStep n col (A, b₂)).2 := by
  by_cases h : findPivot A col col = n
  · simp [gaussStep, h]
  · have hple : findPivot A col col ≤ n := by
      obtain ⟨_, h2, _, _, _⟩ :=
        findPivot_spec A col (A.length - col) col (Nat.le_refl _)
      rw [← hA]
      exact h2 (by omega)
    have hplt : findPivot A col col < n := by omega
    simp only [gaussStep, if_neg h]
    rw [swapIdx_bxor (by omega) col (findPivot A col col)]
    have hb1s : (swapIdx b₁ false col (findPivot A col col)).length = n := by
      rw [length_swapIdx, h₁]
    have hb2s : (swapIdx b₂ false col (findPivot A col col)).length = n := by
      rw [length_swapIdx, h₂]
    have hsw : (swapIdx b₁ false col (findPivot A col col)).length =
        (swapIdx b₂ false col (findPivot A col col)).length := by
      rw [hb1s, hb2s]
    refine listext_getD false ?_ ?_
    · simp [length_mapWithIdx, length_swapIdx, bxor, h₁, h₂]
    · intro k hk
      have hkn : k < n := by
        rw [length_mapWithIdx, bxor_length hb1s hb2s] at hk
        exact hk
      have hkb : k < (bxor (swapIdx b₁ false col (findPivot A col col))
          (swapIdx b₂ false col (findPivot A col col))).length := by
        rw [bxor_length hb1s hb2s]
        exact hkn
      have hk1 : k < (swapIdx b₁ false col (findPivot A col col)).length := by
        rw [hb1s]; exact hkn
      have hk2 : k < (swapIdx b₂ false col (findPivot A col col)).length := by
        rw [hb2s]; exact hkn
      rw [getD_mapWithIdx0 _ false hkb]
      rw [getD_bxor hsw k]
      rw [getD_bxor hsw col]
      rw [getD_bxor ?hml k]
      case hml => rw [length_mapWithIdx, length_mapWithIdx, hb1s, hb2s]
      rw [getD_mapWithIdx0 _ false hk1]
      rw [getD_mapWithIdx0 _ false hk2]
      by_cases hcond : col < k ∧
          ((swapIdx A vzero col (findPivot A col col)).getD k vzero) col = true
      · rw [if_pos hcond, if_pos hcond, if_pos hcond]
        cases (swapIdx b₁ false col (findPivot A col col)).getD k false <;>
          cases (swapIdx b₂ false col (findPivot A col col)).getD k false <;>
          cases (swapIdx b₁ false col (findPivot A col col)).getD col false <;>
          cases (swapIdx b₂ false col (findPivot A col col)).getD col false <;> rfl
      · rw [if_neg hcond, if_neg hcond, if_neg hcond]

/-- Linearity of the whole forward elimination over the columns processed. -/
theorem gaussFold_linear (n : Nat) :
    ∀ (l : List Nat), (∀ c ∈ l, c < n) → ∀ (A : List Vec) (b₁ b₂ : List Bool),
      A.length = n → b₁.length = n → b₂.length = n →
      (l.foldl (fun s c => gaussStep n c s) (A, bxor b₁ b₂)).1 =
        (l.foldl (fun s c => gaussStep n c s) (A, b₁)).1 ∧
      (l.foldl (fun s c => gaussStep n c s) (A, b₂)).1 =
        (l.foldl (fun s c => gaussStep n c s) (A, b₁)).1 ∧
      (l.foldl (fun s c => gaussStep n c s) (A, bxor b₁ b₂)).2 =
        bxor (l.foldl (fun s c => gaussStep n c s) (A, b₁)).2
          (l.foldl (fun s c => gaussStep n c s) (A, b₂)).2 ∧
      (l.foldl (fun s c => gaussStep n c s) (A, b₁)).1.length = n ∧
      (l.foldl (fun s c => gaussStep n c s) (A, b₁)).2.length = n ∧
      (l.foldl (fun s c => gaussStep n c s) (A, b₂)).2.length = n := by
  intro l
  induction l with
  | nil =>
    intro _ A b₁ b₂ hA h₁ h₂
    exact ⟨rfl, rfl, rfl, hA, h₁, h₂⟩
  | cons c l' ih =>
    intro hmem A b₁ b₂ hA h₁ h₂
    have hc : c < n := hmem c (List.mem_cons_self _ _)
    have hstep : gaussStep n c (A, bxor b₁ b₂) =
        ((gaussStep n c (A, b₁)).1,
         bxor (gaussStep n c (A, b₁)).2 (gaussStep n c (A, b₂)).2) := by
      refine Prod.ext ?_ ?_
      · exact gaussStep_fst_const n c A (bxor b₁ b₂) b₁
      · exact gaussStep_snd_linear hc hA h₁ h₂
    have hstep2 : gaussStep n c (A, b₂) =
        ((gaussStep n c (A, b₁)).1, (gaussStep n c (A, b₂)).2) := by
      refine Prod.ext ?_ rfl
      exact gaussStep_fst_const n c A b₂ b₁
    have hstep1 : gaussStep n c (A, b₁) =
        ((gaussStep n c (A, b₁)).1, (gaussStep n c (A, b₁)).2) := rfl
    rw [List.foldl_cons, List.foldl_cons, List.foldl_cons, hstep, hstep2]
    conv_lhs => rw [hstep1]
    have := ih (fun d hd => hmem d (List.mem_cons_of_mem _ hd))
      (gaussStep n c (A, b₁)).1 (gaussStep n c (A, b₁)).2 (gaussStep n c (A, b₂)).2
      (gaussStep_fst_length hA) (gaussStep_snd_length h₁) (gaussStep_snd_length h₂)
    obtain ⟨c1, c2, c3, c4, c5, c6⟩ := this
    refine ⟨c1, c2, c3, c4, c5, c6⟩

/-- Linearity of one reverse-substitution step in the right-hand side. -/
theorem backRow_linear (A : List Vec) (n row : Nat) {b₁ b₂ s₁ s₂ : List Bool}
    (hb : b₁.length = b₂.length) (hs : s₁.length = s₂.length) :
    backRow A (bxor b₁ b₂) n row (bxor s₁ s₂) =
      bxor (backRow A b₁ n row s₁) (backRow A b₂ n row s₂) := by
  rw [backRow_eq, backRow_eq, backRow_eq]
  rw [← set_bxor hs row]
  congr 1
  rw [getD_bxor hb row]
  have hsum : xorSum (fun c => (A.getD row vzero) c && (bxor s₁ s₂).getD c false)
      (List.range' (row + 1) (n - (row + 1))) =
      xor (xorSum (fun c => (A.getD row vzero) c && s₁.getD c false)
        (List.range' (row + 1) (n - (row + 1))))
        (xorSum (fun c => (A.getD row vzero) c && s₂.getD c false)
          (List.range' (row + 1) (n - (row + 1)))) := by
    rw [← xorSum_xor]
    refine xorSum_congr ?_
    intro c _
    rw [getD_bxor hs c]
    cases (A.getD row vzero) c <;> cases s₁.getD c false <;>
      cases s₂.getD c false <;> rfl
  rw [hsum]
  cases b₁.getD row false <;> cases b₂.getD row false <;>
    cases xorSum (fun c => (A.getD row vzero) c && s₁.getD c false)
      (List.range' (row + 1) (n - (row + 1))) <;>
    cases xorSum (fun c => (A.getD row vzero) c && s₂.getD c false)
      (List.range' (row + 1) (n - (row + 1))) <;> rfl

/-- Linearity of the whole reverse substitution in the right-hand side. -/
theorem backSubst_linear (n : Nat) (A : List Vec) {b₁ b₂ : List Bool}
    (hb : b₁.length = b₂.length) :
    backSubst n A (bxor b₁ b₂) = bxor (backSubst n A b₁) (backSubst n A b₂) := by
  rw [backSubst, backSubst, backSubst]
  suffices h : ∀ (l : List Nat) (s₁ s₂ : List Bool), s₁.length = s₂.length →
      l.foldl (fun xR i => backRow A (bxor b₁ b₂) n (n - 1 - i) xR) (bxor s₁ s₂) =
        bxor (l.foldl (fun xR i => backRow A b₁ n (n - 1 - i) xR) s₁)
          (l.foldl (fun xR i => backRow A b₂ n (n - 1 - i) xR) s₂) by
    have hinst := h (List.range n) (List.replicate n false) (List.replicate n false)
      (by simp)
    rw [bxor_replicate_false] at hinst
    exact hinst
  intro l
  induction l with
  | nil => intro s₁ s₂ _; rfl
  | cons i l' ih =>
    intro s₁ s₂ hs
    rw [List.foldl_cons, List.foldl_cons, List.foldl_cons]
    rw [backRow_linear A n (n - 1 - i) hb hs]
    refine ih _ _ ?_
    rw [backRow_eq, backRow_eq]
    simp [hs]

/-- The solution produced by elimination plus reverse substitution is linear
in the right-hand side (the matrix path does not depend on it). -/
theorem elimination_backSubst_linear (y x : Nat) (b₁ b₂ : List Bool)
    (h₁ : b₁.length = y * x) (h₂ : b₂.length = y * x) :
    backSubst (y * x) (gaussElim (y * x) (buildA y x) (bxor b₁ b₂)).1
        (gaussElim (y * x) (buildA y x) (bxor b₁ b₂)).2 =
      bxor
        (backSubst (y * x) (gaussElim (y * x) (buildA y x) b₁).1
          (gaussElim (y * x) (buildA y x) b₁).2)
        (backSubst (y * x) (gaussElim (y * x) (buildA y x) b₂).1
          (gaussElim (y * x) (buildA y x) b₂).2) := by
  obtain ⟨c1, c2, c3, c4, c5, c6⟩ := gaussFold_linear (y * x) (List.range (y * x))
    (fun c hc => by simpa using hc) (buildA y x) b₁ b₂ (buildA_length y x) h₁ h₂
  rw [show (gaussElim (y * x) (buildA y x) (bxor b₁ b₂)).1 =
    (gaussElim (y * x) (buildA y x) b₁).1 from c1]
  rw [show (gaussElim (y * x) (buildA y x) (bxor b₁ b₂)).2 =
    bxor (gaussElim (y * x) (buildA y x) b₁).2
      (gaussElim (y * x) (buildA y x) b₂).2 from c3]
  rw [show (gaussElim (y * x) (buildA y x) b₂).1 =
    (gaussElim (y * x) (buildA y x) b₁).1 from c2]
  exact backSubst_linear (y * x) _ (by
    rw [show (gaussElim (y * x) (buildA y x) b₁).2.length = y * x from c5,
      show (gaussElim (y * x) (buildA y x) b₂).2.length = y * x from c6])

/-- Claim C1: for every grid of dimensions `y, x ≥ 1` and every reachable
initial state (one produced by a finite sequence of in-range toggles from the
all-false grid), the toggle set computed by `openBox`'s build, eliminate and
back-substitute phases, replayed against the grid, leaves every cell false,
and `openBox` returns false. -/
theorem claim_C1 (y x : Nat) (hy : 0 < y) (hx : 0 < x)
    (ts : List (Nat × Nat)) (hts : ∀ p ∈ ts, p.1 < y ∧ p.2 < x) :
    (∀ r, r < y → ∀ c, c < x →
      applySolution y x (toggleList y x allFalse ts)
        (backSubst (y * x)
          (gaussElim (y * x) (buildA y x)
            (buildB y x (toggleList y x allFalse ts))).1
          (gaussElim (y * x) (buildA y x)
            (buildB y x (toggleList y x allFalse ts))).2) r c = false) ∧
    openBoxOn y x (toggleList y x allFalse ts) = false :=
  openBoxOn_reachable y x hy hx ts hts

/-- Witness for C1 at `y = x = 1` with the single toggle `(0, 0)`. -/
theorem claim_C1_wit :
    (0 < 1 ∧ 0 < 1 ∧ (∀ p ∈ [((0 : Nat), (0 : Nat))], p.1 < 1 ∧ p.2 < 1)) ∧
    ((∀ r, r < 1 → ∀ c, c < 1 →
      applySolution 1 1 (toggleList 1 1 allFalse [(0, 0)])
        (backSubst (1 * 1)
          (gaussElim (1 * 1) (buildA 1 1)
            (buildB 1 1 (toggleList 1 1 allFalse [(0, 0)]))).1
          (gaussElim (1 * 1) (buildA 1 1)
            (buildB 1 1 (toggleList 1 1 allFalse [(0, 0)]))).2) r c = false) ∧
    openBoxOn 1 1 (toggleList 1 1 allFalse [(0, 0)]) = false) :=
  ⟨⟨by decide, by decide, by decide⟩,
   claim_C1 1 1 (by decide) (by decide) [(0, 0)] (by decide)⟩

/-- Claim C2: for every `y ≥ 1`, `x ≥ 1` and every run of the constructor's
random scramble that terminates normally (modelled as `shuffle` returning
`some`), `openBox` returns false: the shuffled state is reachable from
all-false, so the solver always unlocks the box. -/
theorem claim_C2 (y x : Nat) (hy : 0 < y) (hx : 0 < x) (rng : List Nat)
    (res : Bool) (h : openBoxRun y x rng = some res) : res = false := by
  rw [openBoxRun] at h
  cases hsh : shuffle y x allFalse rng with
  | none => rw [hsh] at h; cases h
  | some g' =>
    rw [hsh] at h
    simp only [Option.map_some'] at h
    obtain ⟨ts, hts, hg⟩ := shuffle_reachable y x hy hx rng g' hsh
    injection h with h
    rw [← h, hg]
    exact (openBoxOn_reachable y x hy hx ts hts).2

/-- Witness for C2 at `y = x = 1` with generator output `[0]` (zero toggles). -/
theorem claim_C2_wit :
    (0 < 1 ∧ 0 < 1 ∧ openBoxRun 1 1 [0] = some (openBoxOn 1 1 allFalse)) ∧
    openBoxOn 1 1 allFalse = false :=
  ⟨⟨by decide, by decide, rfl⟩,
   claim_C2 1 1 (by decide) (by decide) [0] (openBoxOn 1 1 allFalse) rfl⟩

/-- Claim C3 (corrected): the degenerate part of the original claim holds for
the solver core: when `y = 0` or `x = 0` the system is empty and
`openBoxOn` returns false without any division.  But the claim's "no modulo
by zero anywhere in the call" is false: `openBox` first constructs the box,
whose `shuffle` computes `rng() % ySize` and `rng() % xSize`; whenever the
shuffle performs at least one toggle (`rng() % 1000 ≠ 0`), one of the two is
a modulo by zero — undefined behaviour, modelled by `openBoxRun` returning
`none`. -/
theorem claim_C3 (y x : Nat) (g : Grid) (r0 : Nat) (rest : List Nat)
    (h : y = 0 ∨ x = 0) (hr0 : r0 % 1000 ≠ 0) :
    openBoxOn y x g = false ∧ openBoxRun y x (r0 :: rest) = none := by
  refine ⟨openBoxOn_degenerate y x g h, ?_⟩
  rw [openBoxRun, shuffle]
  obtain ⟨t, ht⟩ : ∃ t, r0 % 1000 = t + 1 := ⟨r0 % 1000 - 1, by omega⟩
  rw [ht]
  match rest with
  | [] => rfl
  | [r] => rfl
  | r1 :: r2 :: rest' =>
    rcases h with rfl | rfl
    · simp [shuffleSteps, cppMod]
    · rcases hcm : cppMod r1 y with _ | ry
      · simp [shuffleSteps, hcm, cppMod]
      · simp [shuffleSteps, hcm, cppMod]

/-- Witness for C3 at `y = 0`, `x = 5`, generator outputs `[1, 3, 4]`. -/
theorem claim_C3_wit :
    (((0 : Nat) = 0 ∨ (5 : Nat) = 0) ∧ (1 : Nat) % 1000 ≠ 0) ∧
    (openBoxOn 0 5 allFalse = false ∧ openBoxRun 0 5 [1, 3, 4] = none) :=
  ⟨⟨Or.inl rfl, by decide⟩,
   claim_C3 0 5 allFalse 1 [3, 4] (Or.inl rfl) (by decide)⟩

/-- Counterexample to the original claim C3: with `y = 0`, `x = 5` the call
`openBox(0, 5)` does not trivially succeed — the constructor's shuffle
performs a modulo by zero (undefined behaviour, modelled as `none`). -/
theorem claim_C3_cex : openBoxRun 0 5 [1, 3, 4] = none := rfl

/-- Claim C4 (code bug): `main` performs no validation at all.  The two
`atol` results are converted to `uint32_t` and flow straight into
`openBox`: with arguments `"0" "5"` the solver is invoked on dimensions
`0 × 5` (reaching the modulo-by-zero of C3), and with a missing argument
`argv[1]`/`argv[2]` is read out of bounds (modelled as `none`) instead of
failing fast at the boundary. -/
theorem claim_C4 (p : Int) (rng : List Nat) :
    mainRun [p, 0, 5] rng = some (openBoxRun 0 5 rng) ∧
    mainRun [p] rng = none :=
  ⟨rfl, rfl⟩

/-- Claim C5: after the system-construction loop, `b[i]` is the initial value
of grid cell `(i / x, i % x)`, and `A[i][j]` is true exactly when `j` lies in
the same row as `i`, in the same column as `i`, or `j = i`.  The construction
is pure in this embedding: `buildA`/`buildB` read the grid `g` and return the
system, leaving `g` untouched. -/
theorem claim_C5 (y x : Nat) (hx : 0 < x) (g : Grid) (i j : Nat)
    (hi : i < y * x) (hj : j < y * x) :
    (buildB y x g).getD i false = g (i / x) (i % x) ∧
    (buildA y x).getD i vzero j =
      (decide (j / x = i / x) || decide (j % x = i % x) || decide (j = i)) := by
  refine ⟨buildB_getD g hi, ?_⟩
  rw [buildA_getD hi, buildRow_apply' y x i j hx hj]
  cases hd : decide (j = i) <;> cases he : decide (j / x = i / x) <;>
    cases hf : decide (j % x = i % x) <;> rfl

/-- Witness for C5 at `y = x = 2`, `i = 1`, `j = 2` on the all-false grid. -/
theorem claim_C5_wit :
    (0 < 2 ∧ 1 < 2 * 2 ∧ 2 < 2 * 2) ∧
    ((buildB 2 2 allFalse).getD 1 false = allFalse (1 / 2) (1 % 2) ∧
    (buildA 2 2).getD 1 vzero 2 =
      (decide (2 / 2 = 1 / 2) || decide (2 % 2 = 1 % 2) || decide ((2 : Nat) = 1))) :=
  ⟨⟨by decide, by decide, by decide⟩,
   claim_C5 2 2 (by decide) allFalse 1 2 (by decide) (by decide)⟩

/-- Claim C6: in the elimination iteration for column `col`, the pivot found
is the smallest row index `p ≥ col` with `A[p][col]` true, and when such a
row exists (pivot ≠ n) the step swaps rows `col` and `pivot` of `A` and the
entries `col` and `pivot` of `b` together before clearing the column. -/
theorem claim_C6 (n col : Nat) (A : List Vec) (b : List Bool)
    (hA : A.length = n) :
    (col ≤ findPivot A col col ∧
     (findPivot A col col < n → (A.getD (findPivot A col col) vzero) col = true) ∧
     (∀ q, col ≤ q → q < findPivot A col col → (A.getD q vzero) col = false) ∧
     (∀ q, col ≤ q → (A.getD q vzero) col = true → findPivot A col col ≤ q)) ∧
    (findPivot A col col ≠ n →
      gaussStep n col (A, b) =
        (mapWithIdx (elimRowOp n col
            ((swapIdx A vzero col (findPivot A col col)).getD col vzero)) 0
          (swapIdx A vzero col (findPivot A col col)),
         mapWithIdx (fun r βr =>
            if col < r ∧ ((swapIdx A vzero col (findPivot A col col)).getD r vzero) col
            then xor βr ((swapIdx b false col (findPivot A col col)).getD col false)
            else βr) 0
          (swapIdx b false col (findPivot A col col)))) := by
  subst hA
  obtain ⟨h1, h2, h3, h4, h5⟩ := findPivot_spec A col A.length col (by omega)
  refine ⟨⟨h1, fun hlt => h3 hlt, fun q hq1 hq2 => h4 q hq1 hq2,
    fun q hq1 hq2 => h5 q hq1 hq2⟩, ?_⟩
  intro hne
  rw [show gaussStep A.length col (A, b) =
    (if findPivot A col col = A.length then (A, b) else
      (mapWithIdx (elimRowOp A.length col
          ((swapIdx A vzero col (findPivot A col col)).getD col vzero)) 0
        (swapIdx A vzero col (findPivot A col col)),
       mapWithIdx (fun r βr =>
          if col < r ∧ ((swapIdx A vzero col (findPivot A col col)).getD r vzero) col
          then xor βr ((swapIdx b false col (findPivot A col col)).getD col false)
          else βr) 0
        (swapIdx b false col (findPivot A col col)))) from rfl, if_neg hne]

/-- Witness for C6 on the 1×1 system. -/
theorem claim_C6_wit :
    (buildA 1 1).length = 1 ∧
    ((0 ≤ findPivot (buildA 1 1) 0 0 ∧
     (findPivot (buildA 1 1) 0 0 < 1 →
       ((buildA 1 1).getD (findPivot (buildA 1 1) 0 0) vzero) 0 = true) ∧
     (∀ q, 0 ≤ q → q < findPivot (buildA 1 1) 0 0 →
       ((buildA 1 1).getD q vzero) 0 = false) ∧
     (∀ q, 0 ≤ q → ((buildA 1 1).getD q vzero) 0 = true →
       findPivot (buildA 1 1) 0 0 ≤ q)) ∧
    (findPivot (buildA 1 1) 0 0 ≠ 1 →
      gaussStep 1 0 (buildA 1 1, [true]) =
        (mapWithIdx (elimRowOp 1 0
            ((swapIdx (buildA 1 1) vzero 0 (findPivot (buildA 1 1) 0 0)).getD 0 vzero)) 0
          (swapIdx (buildA 1 1) vzero 0 (findPivot (buildA 1 1) 0 0)),
         mapWithIdx (fun r βr =>
            if 0 < r ∧
              ((swapIdx (buildA 1 1) vzero 0 (findPivot (buildA 1 1) 0 0)).getD r vzero) 0
            then xor βr
              ((swapIdx [true] false 0 (findPivot (buildA 1 1) 0 0)).getD 0 false)
            else βr) 0
          (swapIdx [true] false 0 (findPivot (buildA 1 1) 0 0))))) :=
  ⟨by simp [buildA], claim_C6 1 0 (buildA 1 1) [true] (by simp [buildA])⟩

/-- Claim C7: after the forward elimination has processed columns
`0 … c`, every row of the matrix with index greater than `c` has false in
every column `≤ c`.  (This is the claim's invariant in a strengthened form:
it holds in all columns `≤ c`, including the free columns that acquired no
pivot.) -/
theorem claim_C7 (y x : Nat) (hx : 0 < x) (b : List Bool)
    (hb : b.length = y * x) (c : Nat) (hc : c < y * x) :
    ∀ r, c < r → r < y * x → ∀ d, d ≤ c →
      ((List.range (c + 1)).foldl (fun s col => gaussStep (y * x) col s)
        (buildA y x, b)).1.getD r vzero d = false := by
  have hbr := bridge (y * x) (c + 1) 0 (buildA y x) b (by omega)
    (buildA_length y x) hb (buildA_act y x hx)
  intro r hr1 hr2 d hd
  rw [List.range_eq_range']
  exact hbr.act r (by omega) hr2 d (Or.inl (by omega))

/-- Witness for C7 on the 1×1 system after processing column 0. -/
theorem claim_C7_wit :
    (0 < 1 ∧ [true].length = 1 * 1 ∧ 0 < 1 * 1) ∧
    (∀ r, 0 < r → r < 1 * 1 → ∀ d, d ≤ 0 →
      ((List.range (0 + 1)).foldl (fun s col => gaussStep (1 * 1) col s)
        (buildA 1 1, [true])).1.getD r vzero d = false) :=
  ⟨⟨by decide, by decide, by decide⟩,
   claim_C7 1 1 (by decide) [true] (by decide) 0 (by decide)⟩

/-- Claim C8: for fixed dimensions the computed solution is linear in the
right-hand side: the solution for the cell-wise xor `b₁ ^^ b₂` is the
cell-wise xor of the solutions for `b₁` and for `b₂`. -/
theorem claim_C8 (y x : Nat) (b₁ b₂ : List Bool)
    (h₁ : b₁.length = y * x) (h₂ : b₂.length = y * x) :
    backSubst (y * x) (gaussElim (y * x) (buildA y x) (bxor b₁ b₂)).1
        (gaussElim (y * x) (buildA y x) (bxor b₁ b₂)).2 =
      bxor
        (backSubst (y * x) (gaussElim (y * x) (buildA y x) b₁).1
          (gaussElim (y * x) (buildA y x) b₁).2)
        (backSubst (y * x) (gaussElim (y * x) (buildA y x) b₂).1
          (gaussElim (y * x) (buildA y x) b₂).2) :=
  elimination_backSubst_linear y x b₁ b₂ h₁ h₂

/-- Witness for C8 on the 1×1 system with `b₁ = [true]`, `b₂ = [false]`. -/
theorem claim_C8_wit :
    ([true].length = 1 * 1 ∧ [false].length = 1 * 1) ∧
    backSubst (1 * 1) (gaussElim (1 * 1) (buildA 1 1) (bxor [true] [false])).1
        (gaussElim (1 * 1) (buildA 1 1) (bxor [true] [false])).2 =
      bxor
        (backSubst (1 * 1) (gaussElim (1 * 1) (buildA 1 1) [true]).1
          (gaussElim (1 * 1) (buildA 1 1) [true]).2)
        (backSubst (1 * 1) (gaussElim (1 * 1) (buildA 1 1) [false]).1
          (gaussElim (1 * 1) (buildA 1 1) [false]).2) :=
  ⟨⟨by decide, by decide⟩, claim_C8 1 1 [true] [false] (by decide) (by decide)⟩

/-- Claim C9: for every grid state and every in-range position `(r, c)`,
toggling `(r, c)` twice in succession restores the grid exactly.  (The
restoration is proved for all positions; the claim's in-range bounds are
carried as hypotheses.) -/
theorem claim_C9 (ySize xSize : Nat) (g : Grid) (ty tx : Nat)
    (_hty : ty < ySize) (_htx : tx < xSize) :
    toggle ySize xSize (toggle ySize xSize g ty tx) ty tx = g :=
  toggle_toggle ySize xSize g ty tx

/-- Witness for C9 at the 1×1 grid, position `(0, 0)`. -/
theorem claim_C9_wit :
    (0 < 1 ∧ 0 < 1) ∧ toggle 1 1 (toggle 1 1 allFalse 0 0) 0 0 = allFalse :=
  ⟨⟨by decide, by decide⟩, claim_C9 1 1 allFalse 0 0 (by decide) (by decide)⟩

/-- Claim C10: the coefficient matrix built by `openBox` is symmetric:
`A[i][j] = A[j][i]` for all `i, j < y*x`.  `buildA` does not take the grid
at all, so the symmetry is independent of the state `b` is read from. -/
theorem claim_C10 (y x : Nat) :
    ∀ i, i < y * x → ∀ j, j < y * x →
      (buildA y x).getD i vzero j = (buildA y x).getD j vzero i := by
  intro i hi j hj
  have hx : 0 < x := by
    rcases Nat.eq_zero_or_pos x with hx0 | hx0
    · subst hx0
      simp at hi
    · exact hx0
  exact buildA_symm y x hx i hi j hj

/-- Witness for C10 at `y = x = 2`, `i = 0`, `j = 3`. -/
theorem claim_C10_wit :
    (0 < 2 * 2 ∧ 3 < 2 * 2) ∧
    (buildA 2 2).getD 0 vzero 3 = (buildA 2 2).getD 3 vzero 0 :=
  ⟨⟨by decide, by decide⟩, claim_C10 2 2 0 (by decide) 3 (by decide)⟩

end SecureBoxSpec
